import Mathlib

/-!
Verification of the Little Bites order aggregation & projection engine
(Google Apps Script backend, v2.3).  The definitions below are a shallow
embedding of the core functions of the source: the option tuple codec
(`writeToOrders` encoding, `aggregateOptions` decoding), the totals
aggregator, the kitchen shorthand formatter, the column schema builder,
the row builder shared by live ingestion and journal replay, and the
journal rebuild operation.
-/

namespace LittleBites

/-! ## Basic JavaScript string primitives, modelled over lists of characters -/

/-- ASCII whitespace characters recognised by JavaScript `trim` and `\s`. -/
def isJsWs (c : Char) : Bool :=
  c == ' ' || c == '\t' || c == '\n' || c == '\r' || c == '\x0b' || c == '\x0c'

/-- JavaScript `String.prototype.trim` on a character list: drop whitespace
from both ends. -/
def trimChars (cs : List Char) : List Char :=
  ((cs.dropWhile isJsWs).reverse.dropWhile isJsWs).reverse

/-- JavaScript `trim` on strings. -/
def jsTrim (s : String) : String := ⟨trimChars s.data⟩

/-- JavaScript `Array.prototype.join(sep)`. -/
def joinSep (sep : String) : List String → String
  | [] => ""
  | [x] => x
  | x :: y :: rest => x ++ sep ++ joinSep sep (y :: rest)

/-- JavaScript `String.prototype.split(", ")` (fixed separator), on character
lists: split at every non-overlapping, left-most occurrence of `", "`. -/
def splitCS : List Char → List Char → List (List Char)
  | ',' :: ' ' :: rest, acc => acc.reverse :: splitCS rest []
  | c :: rest, acc => splitCS rest (c :: acc)
  | [], acc => [acc.reverse]

/-- String wrapper for `splitCS`: JavaScript `s.split(", ")`. -/
def jsSplitCS (s : String) : List String :=
  (splitCS s.data []).map fun l => ⟨l⟩

/-- Substring test, JavaScript `String.prototype.includes`. -/
def hasSubstr (needle : List Char) : List Char → Bool
  | [] => needle.isPrefixOf []
  | c :: rest => needle.isPrefixOf (c :: rest) || hasSubstr needle rest

/-- JavaScript `toLowerCase` (ASCII). -/
def jsToLower (s : String) : String := ⟨s.data.map Char.toLower⟩

/-- JavaScript `toUpperCase` (ASCII). -/
def jsToUpper (s : String) : String := ⟨s.data.map Char.toUpper⟩

/-! ## Spreadsheet cell values -/

/-- A spreadsheet cell value: a string, a number, or a date serial. -/
inductive Cell where
  | str (s : String)
  | num (n : Nat)
  | date (t : Nat)
  deriving DecidableEq, Repr

/-- JavaScript falsiness of a cell value (`!optionsCell`): the empty string
and the number `0` are falsy. -/
def Cell.jsFalsy : Cell → Bool
  | .str s => s == ""
  | .num n => n == 0
  | .date _ => false

/-- JavaScript `toString()` of a cell value. -/
def Cell.jsToString : Cell → String
  | .str s => s
  | .num n => Nat.repr n
  | .date t => "Date(" ++ Nat.repr t ++ ")"

/-! ## Option tuple codec

Encoding, from `writeToOrders` (src/unnamed/part_000, lines 322-329):
each collected per-instance option list `opts` (already filtered of falsy
slots) renders as `(opt1, opt2, ...)` when non-empty and as nothing when
empty; the non-empty renderings are joined with `", "`. -/

/-- Drop falsy (empty-string) option slots of one instance:
`instance.options.filter(Boolean)`. -/
def instOpts (inst : List String) : List String := inst.filter (fun o => o ≠ "")

/-- Render one already-filtered option list as a tuple string, or as `""`
when no option survived (`opts.length > 0 ? \x28${opts.join(", ")}\x29 : ""`). -/
def renderTuple (opts : List String) : String :=
  if opts = [] then "" else "(" ++ joinSep ", " opts ++ ")"

/-- The non-empty tuple strings produced for a list of already-filtered
instances (`instances.map(...).filter(Boolean)`). -/
def renderedOf (is : List (List String)) : List String :=
  (is.map renderTuple).filter (fun t => t ≠ "")

/-- The options-column string for a list of already-filtered instances
(`.join(", ")`). -/
def encodeInstances (is : List (List String)) : String :=
  joinSep ", " (renderedOf is)

/-- Encoding of a raw instance sequence: filter each instance's falsy
slots, then render. -/
def encodeOrder (is : List (List String)) : String :=
  encodeInstances (is.map instOpts)

/-- The ordered list of tuple strings implied by a raw instance sequence:
one tuple per instance with at least one non-empty option. -/
def tuplesOfOrder (is : List (List String)) : List String :=
  renderedOf (is.map instOpts)

/-! Decoding, from `aggregateOptions` (src/unnamed/part_000, lines 397-425):
split the cell on the regular expression `\),\s*\(`, then restore the
parentheses consumed by the split. -/

/-- After seeing `"),"`: consume `\s*` and then an opening parenthesis.
Returns the remaining input on success. -/
def dropWsOpen : List Char → Option (List Char)
  | [] => none
  | c :: rest => if c = '(' then some rest
      else if isJsWs c then dropWsOpen rest else none

theorem dropWsOpen_length {cs rest : List Char} (h : dropWsOpen cs = some rest) :
    rest.length < cs.length := by
  induction cs with
  | nil => simp [dropWsOpen] at h
  | cons c cs ih =>
    by_cases hc : c = '('
    · simp [dropWsOpen, hc] at h
      simp [← h]
    · by_cases hw : isJsWs c
      · simp [dropWsOpen, hc, hw] at h
        exact Nat.lt_trans (ih h) (Nat.lt_succ_self _)
      · simp [dropWsOpen, hc, hw] at h

/-- JavaScript `optionString.split(/\),\s*\(/)`: scan left to right; at each
occurrence of `")"` followed by `","`, whitespace and `"("`, cut a fragment
(the separator characters are consumed).  The first argument is recursion
fuel; every step strictly shortens the input, so `length + 1` fuel always
suffices (`splitSepFuel_congr` below). -/
def splitSepFuel : Nat → List Char → List Char → List (List Char)
  | 0, _, acc => [acc.reverse]
  | _ + 1, [], acc => [acc.reverse]
  | fuel + 1, c :: rest, acc =>
    if c = ')' ∧ rest.head? = some ',' then
      (match dropWsOpen rest.tail with
       | some rest' => acc.reverse :: splitSepFuel fuel rest' []
       | none => splitSepFuel fuel rest (')' :: acc))
    else splitSepFuel fuel rest (c :: acc)

/-- The regex split, with enough fuel for the whole input. -/
def splitSepAux (cs acc : List Char) : List (List Char) :=
  splitSepFuel (cs.length + 1) cs acc

/-- Bool test: does the fragment start with `"("`? -/
def startsParen : List Char → Bool
  | [] => false
  | c :: _ => c = '('

/-- Bool test: does the fragment end with `")"`? -/
def endsParen (l : List Char) : Bool :=
  match l.getLast? with
  | some c => c = ')'
  | none => false

/-- Restore the parentheses consumed by the split (`aggregateOptions`,
lines 409-421): re-add `"("` for every fragment but the first, `")"` for
every fragment but the last, then ensure both are present. `n` is the
number of fragments and `i` the fragment's index. -/
def ensureParens (n i : Nat) (t0 : List Char) : List Char :=
  let t1 := if 0 < i ∧ ¬ startsParen t0 then '(' :: t0 else t0
  let t2 := if i < n - 1 ∧ ¬ endsParen t1 then t1 ++ [')'] else t1
  let t3 := if ¬ startsParen t2 then '(' :: t2 else t2
  if ¬ endsParen t3 then t3 ++ [')'] else t3

/-- Process the fragments in order: trim each, skip the empty ones, restore
parentheses on the rest (`optionTuples.forEach` body). -/
def fixFrags (n : Nat) : Nat → List (List Char) → List (List Char)
  | _, [] => []
  | i, f :: rest =>
    let tf := trimChars f
    if tf = [] then fixFrags n (i + 1) rest
    else ensureParens n i tf :: fixFrags n (i + 1) rest

/-- Decode one options cell into its list of complete tuples. -/
def decodeChars (cs : List Char) : List (List Char) :=
  let t := trimChars cs
  let frags := splitSepAux t []
  fixFrags frags.length 0 frags

/-- String wrapper: the list of tuple strings decoded from one cell. -/
def decodeCell (s : String) : List String :=
  (decodeChars s.data).map fun l => ⟨l⟩

/-! ## Aggregator (`aggregateOptions`, src/unnamed/part_000, lines 388-435) -/

/-- Count one tuple into the accumulated map
(`optionCounts[trimmed] = (optionCounts[trimmed] || 0) + 1`): an existing
key is incremented in place, a new key is appended.  The association list
models a JavaScript object whose (non-index-like) keys iterate in
insertion order. -/
def bump : List (String × Nat) → String → List (String × Nat)
  | [], k => [(k, 1)]
  | (k', n) :: rest, k =>
    if k' = k then (k', n + 1) :: rest else (k', n) :: bump rest k

/-- The tuple-frequency map accumulated over all data-row cells of one
options column; falsy cells are skipped. -/
def tallyAll (cells : List Cell) : List (String × Nat) :=
  cells.foldl
    (fun m c => if c.jsFalsy then m else (decodeCell c.jsToString).foldl bump m) []

/-- Stable insertion (descending by count): used to model the stable
JavaScript `sort((a, b) => b[1] - a[1])`. -/
def insEntry (x : String × Nat) : List (String × Nat) → List (String × Nat)
  | [] => [x]
  | y :: ys => if x.2 < y.2 then y :: insEntry x ys else x :: y :: ys

/-- Stable sort of the accumulated entries by descending count. -/
def sortEntries : List (String × Nat) → List (String × Nat)
  | [] => []
  | x :: xs => insEntry x (sortEntries xs)

/-- Render one entry as `"<count>x<tuple>"`. -/
def renderEntry (e : String × Nat) : String := Nat.repr e.2 ++ "x" ++ e.1

/-- The Aggregator: decode every cell, count tuples, sort by descending
count (stable), render joined by `", "`; empty input yields `""`. -/
def aggregateOptions (cells : List Cell) : String :=
  joinSep ", " ((sortEntries (tallyAll cells)).map renderEntry)

/-- All tuples decoded from the cells, in row order (falsy cells skipped). -/
def allTuples (cells : List Cell) : List String :=
  cells.flatMap fun c => if c.jsFalsy then [] else decodeCell c.jsToString

/-- First-seen key order of a tuple stream. -/
def firstSeen (ts : List String) : List String :=
  ts.foldl (fun a k => if k ∈ a then a else a ++ [k]) []

/-! ## Kitchen shorthand (`formatKitchenShorthand` and `abbreviate`,
src/unnamed/part_000, lines 754-846) -/

/-- The fixed abbreviation dictionary of `abbreviate`. -/
def abbrevDict : List (String × String) :=
  [("egg", "E"), ("no egg", "NE"), ("croissant", "CR"), ("muffin", "MF"),
   ("bagel", "BG"), ("wrap", "W"), ("salad", "S"), ("salad bowl", "SB"),
   ("chicken", "CH"), ("no chicken", "NCH"), ("dressing", "D"),
   ("no dressing", "ND"), ("hot", "H"), ("iced", "I"), ("small", "SM"),
   ("medium", "MD"), ("large", "LG"), ("sugar", "SU"), ("no sugar", "NS")]

/-- Association-list lookup (JavaScript object property access). -/
def lookupA (k : String) : List (String × String) → Option String
  | [] => none
  | (k', v) :: rest => if k' = k then some v else lookupA k rest

/-- `abbreviate(text)`: dictionary lookup on the trimmed, lowercased text,
falling back to uppercasing (whole text if at most 3 characters, else the
first two). -/
def abbreviate (text : String) : String :=
  if text = "" then ""
  else
    let trimmed := jsTrim text
    match lookupA (jsToLower trimmed) abbrevDict with
    | some a => a
    | none =>
      if trimmed.length ≤ 3 then jsToUpper trimmed
      else jsToUpper ⟨trimmed.data.take 2⟩

/-- The regular expression `^(\d+)x\((.+)\)$` of `formatKitchenShorthand`:
on success returns the digit group and the inner group. -/
def matchCountTuple (part : String) : Option (String × String) :=
  let cs := part.data
  let ds := cs.takeWhile Char.isDigit
  let rest := cs.dropWhile Char.isDigit
  if ds = [] then none
  else
    match rest with
    | 'x' :: '(' :: rest2 =>
      if h : rest2.getLast? = some ')' ∧ 2 ≤ rest2.length then
        let inner := rest2.dropLast
        if inner.any (fun c => c = '\n' || c = '\r') then none
        else some (⟨ds⟩, ⟨inner⟩)
      else none
    | _ => none

/-- One segment of `formatKitchenShorthand`: a segment matching
`"<digits>x(<inner>)"` has every `", "`-separated option abbreviated and
rejoined with `","`; a non-matching segment passes through unchanged. -/
def shorthandPart (part : String) : String :=
  match matchCountTuple part with
  | none => part
  | some (count, inner) =>
    count ++ "x(" ++ joinSep "," ((jsSplitCS inner).map abbreviate) ++ ")"

/-- `formatKitchenShorthand(optionsString)`: empty input renders as the
em-dash marker; otherwise split the whole string on `", "`, process each
part, and rejoin with `", "`. -/
def formatKitchenShorthand (optionsString : String) : String :=
  if optionsString = "" then "—"
  else joinSep ", " ((jsSplitCS optionsString).map shorthandPart)

/-! ## Column schema builder (`initializeOrdersHeaders`,
src/unnamed/part_000, lines 230-265) -/

/-- One menu row as consumed by the core: its `name` and raw `options`
definition string (`"choice1/choice2|choice3/choice4"`). -/
structure MenuItem where
  name : String
  options : String
  deriving DecidableEq, Repr

/-- The five fixed base columns. -/
def baseHeaders : List String := ["Date", "Name", "Phone", "Delivery", "Email"]

/-- `initializeOrdersHeaders`: push, for each menu row in order with a
non-empty name, the item column and — when the options definition is
non-blank — the paired options column. -/
def initializeOrdersHeaders (menu : List MenuItem) : List String :=
  let itemHeaders := menu.foldl
    (fun acc item =>
      if item.name = "" then acc
      else
        acc ++ [item.name] ++
          (if item.options ≠ "" ∧ jsTrim item.options ≠ "" then
            [item.name ++ " - options"] else []))
    []
  baseHeaders ++ itemHeaders

/-- The per-item column contribution, as the spec describes it. -/
def itemCols (item : MenuItem) : List String :=
  if item.name = "" then []
  else
    item.name ::
      (if jsTrim item.options ≠ "" then [item.name ++ " - options"] else [])

/-! ## Row builder (shared by `writeToOrders`, lines 270-336, and the
replay loop of `buildOrdersFromJson`, lines 957-1011) -/

/-- One line item of an order payload.  The current shape carries
`instances` (each instance being its list of selected option strings); the
legacy shape carries a flat `qty` and a single `selectedOptions` list. -/
structure OrderItem where
  name : String
  instances : Option (List (List String))
  qty : Option Nat
  selectedOptions : Option (List String)
  deriving DecidableEq, Repr

/-- The per-instance filtered option lists contributed by one line item
(`item.instances && item.instances.length > 0` chooses the current shape,
else the legacy `qty`/`selectedOptions` shape). -/
def itemInstances (it : OrderItem) : List (List String) :=
  match it.instances with
  | some l =>
    if l ≠ [] then l.map instOpts
    else List.replicate (it.qty.getD 0) (instOpts (it.selectedOptions.getD []))
  | none => List.replicate (it.qty.getD 0) (instOpts (it.selectedOptions.getD []))

/-- Append the instances of one line item to the per-name map
(`itemOptionsMap`): an existing key grows in place, a new key is appended. -/
def addAll : List (String × List (List String)) → String → List (List String) →
    List (String × List (List String))
  | [], k, vs => [(k, vs)]
  | (k', u) :: rest, k, vs =>
    if k' = k then (k', u ++ vs) :: rest else (k', u) :: addAll rest k vs

/-- Group the payload's items by name, collecting all instances
(`payload.items.forEach` of `writeToOrders`). -/
def buildItemMap (items : List OrderItem) : List (String × List (List String)) :=
  items.foldl (fun m it => addAll m it.name (itemInstances it)) []

/-- JavaScript `headers.indexOf(name)` as an optional first index. -/
def lookupIdx (k : String) : List String → Option Nat
  | [] => none
  | h :: t => if h = k then some 0 else (lookupIdx k t).map (· + 1)

/-- Write one map entry into the row: the instance count at the item
column and the encoded options string at the `"<name> - options"` column,
when those columns exist. -/
def applyEntry (headers : List String) (row : List Cell)
    (e : String × List (List String)) : List Cell :=
  let row1 := match lookupIdx e.1 headers with
    | some i => row.set i (Cell.num e.2.length)
    | none => row
  match lookupIdx (e.1 ++ " - options") headers with
  | some j => row1.set j (Cell.str (encodeInstances e.2))
  | none => row1

/-- Build one projection row: base customer cells, then every grouped item
entry applied in map order. -/
def buildOrderRow (headers : List String) (date : Cell)
    (nm ph dl em : String) (items : List OrderItem) : List Cell :=
  let base := (((((List.replicate headers.length (Cell.str "")).set 0 date).set 1
    (Cell.str nm)).set 2 (Cell.str ph)).set 3 (Cell.str dl)).set 4 (Cell.str em)
  (buildItemMap items).foldl (applyEntry headers) base

/-! ## Totals row (`updateTotalsRow`, lines 341-383) and the live path -/

/-- `columnToLetter` body with recursion fuel (the column number itself is
always enough fuel, since `(column - 1) / 26 < column`). -/
def columnToLetterFuel : Nat → Nat → String
  | _, 0 => ""
  | 0, _ + 1 => ""
  | fuel + 1, c + 1 =>
    columnToLetterFuel fuel (c / 26) ++ ⟨[Char.ofNat (c % 26 + 65)]⟩

/-- `columnToLetter`: spreadsheet column number to letter. -/
def columnToLetter (column : Nat) : String :=
  columnToLetterFuel column column

/-- The totals cell for column `idx` (0-based) of `headers`, over the data
rows: `"TOTALS"` in the first column, blank in the other base columns, the
aggregated options for options columns, and a `SUM` formula otherwise. -/
def totalsCell (headers : List String) (dataRows : List (List Cell))
    (idx : Nat) (hdr : String) : Cell :=
  if idx < 5 then (if idx = 0 then Cell.str "TOTALS" else Cell.str "")
  else if hasSubstr " - options".data hdr.data then
    Cell.str (aggregateOptions (dataRows.map fun r => r.getD idx (Cell.str "")))
  else
    Cell.str ("=SUM(" ++ columnToLetter (idx + 1) ++ "2:" ++
      columnToLetter (idx + 1) ++ Nat.repr (dataRows.length + 1) ++ ")")

/-- The synthetic totals row over the given data rows. -/
def totalsRowOf (headers : List String) (dataRows : List (List Cell)) :
    List Cell :=
  (List.range headers.length).map fun idx =>
    totalsCell headers dataRows idx (headers.getD idx "")

/-- `updateTotalsRow`: delete every existing `TOTALS` row, then append a
freshly computed totals row at the bottom. -/
def updateTotalsRow (headers : List String) (body : List (List Cell)) :
    List (List Cell) :=
  let dataRows := body.filter fun r => r.getD 0 (Cell.str "") ≠ Cell.str "TOTALS"
  dataRows ++ [totalsRowOf headers dataRows]

/-- The live ingestion write (`writeToOrders`): append the order's row,
then refresh the totals row. -/
def writeToOrders (headers : List String) (body : List (List Cell))
    (now : Cell) (nm ph dl em : String) (items : List OrderItem) :
    List (List Cell) :=
  updateTotalsRow headers (body ++ [buildOrderRow headers now nm ph dl em items])

/-! ## Projection rebuild (`buildOrdersFromJson`, lines 875-1027) -/

/-- One journal entry (row of `orders_json`): original timestamp, customer
fields, and the stored items payload — `none` when the payload is blank or
cannot be parsed. -/
structure JournalEntry where
  date : Cell
  name : String
  phone : String
  delivery : String
  email : String
  itemsJson : Option (List OrderItem)
  deriving DecidableEq, Repr

/-- One step of the replay loop: a parsable entry appends its rebuilt row
(using the entry's original date) and increments the replayed count; any
other entry is skipped. -/
def replayStep (headers : List String) :
    List (List Cell) × Nat → JournalEntry → List (List Cell) × Nat
  | (rows, cnt), e =>
    match e.itemsJson with
    | none => (rows, cnt)
    | some items =>
      (rows ++ [buildOrderRow headers e.date e.name e.phone e.delivery e.email items],
       cnt + 1)

/-- Replay the whole journal in order: the rebuilt rows and the replayed
count. -/
def replay (headers : List String) (journal : List JournalEntry) :
    List (List Cell) × Nat :=
  journal.foldl (replayStep headers) ([], 0)

/-- The projection state: column headers plus every row below them
(data rows and a possible totals row). -/
structure Projection where
  headers : List String
  body : List (List Cell)
  deriving DecidableEq, Repr

/-- `buildOrdersFromJson`: with enough columns and a non-empty journal,
discard all existing rows, replay every parsable entry, and rebuild the
totals row once at the end (only when something was replayed). -/
def buildOrdersFromJson (journal : List JournalEntry) (p : Projection) :
    Projection :=
  if p.headers.length < 6 then p
  else if journal = [] then p
  else
    let r := replay p.headers journal
    if 0 < r.2 then ⟨p.headers, updateTotalsRow p.headers r.1⟩
    else ⟨p.headers, r.1⟩

/-! ## Column schema builder: characterization (claim C6) -/

theorem headerStep_eq (acc : List String) (item : MenuItem) :
    (if item.name = "" then acc
     else acc ++ [item.name] ++
       (if item.options ≠ "" ∧ jsTrim item.options ≠ "" then
         [item.name ++ " - options"] else [])) = acc ++ itemCols item := by
  unfold itemCols
  by_cases hn : item.name = ""
  · simp [hn]
  · by_cases ho : jsTrim item.options = ""
    · simp [hn, ho]
    · have hne : item.options ≠ "" := by
        intro he
        exact ho (by rw [he]; rfl)
      simp [hn, ho, hne]

theorem initFold (menu : List MenuItem) : ∀ acc : List String,
    menu.foldl
      (fun acc item =>
        if item.name = "" then acc
        else acc ++ [item.name] ++
          (if item.options ≠ "" ∧ jsTrim item.options ≠ "" then
            [item.name ++ " - options"] else []))
      acc = acc ++ menu.flatMap itemCols := by
  induction menu with
  | nil => intro acc; simp
  | cons item rest ih =>
    intro acc
    simp only [List.foldl_cons, List.flatMap_cons]
    rw [headerStep_eq, ih, List.append_assoc]

/-- Claim C6: the Column Schema Builder emits the five fixed base columns
followed, for each menu item in catalog order with a non-empty name, by an
item-count column and — exactly when the item's options definition is
non-blank — the paired `"<name> - options"` column immediately after;
empty-named items contribute nothing, and the output is a function of the
catalog alone. -/
theorem initializeOrdersHeaders_spec (menu : List MenuItem) :
    initializeOrdersHeaders menu =
      ["Date", "Name", "Phone", "Delivery", "Email"] ++
        menu.flatMap itemCols := by
  unfold initializeOrdersHeaders
  rw [initFold]
  rfl

/-! ## Kitchen shorthand abbreviation (claim C8) -/

/-- The abbreviation rule exactly as the spec states it: dictionary code
for the trimmed, lowercased text when present; otherwise the whole trimmed
text uppercased when at most 3 characters, else the first two characters
uppercased. -/
def abbreviateAsSpecified (text : String) : String :=
  let t := jsTrim text
  match lookupA (jsToLower t) abbrevDict with
  | some code => code
  | none => if t.length ≤ 3 then jsToUpper t else jsToUpper ⟨t.data.take 2⟩

/-- Claim C8: `abbreviate` is total and agrees with the spec's rule on
every input string (the code's early return for the empty string coincides
with the fallback rule there). -/
theorem abbreviate_total_spec (s : String) :
    abbreviate s = abbreviateAsSpecified s := by
  by_cases h : s = ""
  · subst h; rfl
  · simp [abbreviate, abbreviateAsSpecified, h]

/-! ## Kitchen shorthand formatter on multi-option tuples (claim C2) -/

/-- Claim C2 (code bug): the formatter splits the whole totals string on
`", "` before matching `"<digits>x(...)"`, so a multi-option tuple such as
`"2x(egg, croissant)"` is cut into fragments that fail the match and pass
through unchanged: the documented input is returned verbatim instead of
being abbreviated.  Single-option tuples do get abbreviated, and the
failing input is exactly what the Aggregator produces in the spec's
scenario. -/
theorem formatKitchenShorthand_multiOption_unchanged :
    aggregateOptions
        [Cell.str "(egg, croissant), (egg, croissant), (no egg, muffin)"] =
      "2x(egg, croissant), 1x(no egg, muffin)" ∧
    formatKitchenShorthand "2x(egg, croissant), 1x(no egg, muffin)" =
      "2x(egg, croissant), 1x(no egg, muffin)" ∧
    formatKitchenShorthand "2x(egg, croissant), 1x(no egg, muffin)" ≠
      "2x(E,CR), 1x(NE,MF)" ∧
    formatKitchenShorthand "4x(egg), 1x(muffin)" = "4x(E), 1x(MF)" :=
  ⟨rfl, rfl, by decide, rfl⟩

/-! ## Rebuild idempotence (claim C7) -/

/-- Claim C7: replaying the same journal twice — the rebuild clears all
data rows itself before replaying — produces identical projections: the
rebuilt rows and totals row are functions of the journal and the column
schema only. -/
theorem buildOrdersFromJson_idempotent (journal : List JournalEntry)
    (p : Projection) :
    buildOrdersFromJson journal (buildOrdersFromJson journal p) =
      buildOrdersFromJson journal p := by
  by_cases h1 : p.headers.length < 6
  · have hp : buildOrdersFromJson journal p = p := by
      simp [buildOrdersFromJson, h1]
    rw [hp]; exact hp
  · by_cases h2 : journal = []
    · have hp : buildOrdersFromJson journal p = p := by
        simp [buildOrdersFromJson, h1, h2]
      rw [hp]; exact hp
    · by_cases h3 : 0 < (replay p.headers journal).2
      · simp [buildOrdersFromJson, h1, h2, h3]
      · simp [buildOrdersFromJson, h1, h2, h3]

/-! ## Legacy line-item shape (claim C9) -/

theorem itemInstances_legacy (name : String) (q : Nat) (S : List String) :
    itemInstances ⟨name, none, some q, some S⟩ =
      itemInstances ⟨name, some (List.replicate q S), some q, none⟩ := by
  unfold itemInstances
  by_cases hq : q = 0
  · subst hq; simp
  · have hne : List.replicate q S ≠ [] := by
      simp [List.replicate, hq]
    simp [hne, List.map_replicate]

/-- Claim C9: a legacy-shape line item (flat quantity `q` plus one
`selectedOptions` list `S`, no instances) produces exactly the same
projection row as a current-shape line item with `q` instances each
carrying options `S`, in any payload position. -/
theorem legacy_lineItem_equiv (headers : List String) (date : Cell)
    (nm ph dl em : String) (pre post : List OrderItem) (name : String)
    (q : Nat) (S : List String) :
    buildOrderRow headers date nm ph dl em
        (pre ++ ⟨name, none, some q, some S⟩ :: post) =
      buildOrderRow headers date nm ph dl em
        (pre ++ ⟨name, some (List.replicate q S), some q, none⟩ :: post) := by
  unfold buildOrderRow buildItemMap
  rw [List.foldl_append, List.foldl_append]
  simp only [List.foldl_cons]
  rw [itemInstances_legacy]

/-! ## Aggregator ordering and stability (claim C3) -/

theorem mem_insEntry {x y : String × Nat} {l : List (String × Nat)} :
    y ∈ insEntry x l ↔ y = x ∨ y ∈ l := by
  induction l with
  | nil => simp [insEntry]
  | cons z zs ih =>
    by_cases h : x.2 < z.2
    · rw [insEntry, if_pos h]
      simp only [List.mem_cons, ih]
      tauto
    · rw [insEntry, if_neg h]
      simp only [List.mem_cons]

theorem pairwise_insEntry {x : String × Nat} {l : List (String × Nat)}
    (h : l.Pairwise (fun a b => b.2 ≤ a.2)) :
    (insEntry x l).Pairwise (fun a b => b.2 ≤ a.2) := by
  induction l with
  | nil => simp [insEntry]
  | cons z zs ih =>
    rw [List.pairwise_cons] at h
    by_cases hlt : x.2 < z.2
    · rw [insEntry, if_pos hlt, List.pairwise_cons]
      refine ⟨?_, ih h.2⟩
      intro y hy
      rcases mem_insEntry.mp hy with rfl | hy
      · exact Nat.le_of_lt hlt
      · exact h.1 y hy
    · rw [insEntry, if_neg hlt, List.pairwise_cons]
      refine ⟨?_, List.pairwise_cons.mpr h⟩
      intro y hy
      rcases List.mem_cons.mp hy with rfl | hy
      · exact Nat.le_of_not_lt hlt
      · exact Nat.le_trans (h.1 y hy) (Nat.le_of_not_lt hlt)

theorem sortEntries_pairwise (l : List (String × Nat)) :
    (sortEntries l).Pairwise (fun a b => b.2 ≤ a.2) := by
  induction l with
  | nil => simp [sortEntries]
  | cons x xs ih => exact pairwise_insEntry ih

theorem filter_insEntry (x : String × Nat) (l : List (String × Nat)) (c : Nat) :
    (insEntry x l).filter (fun e => e.2 == c) =
      (x :: l).filter (fun e => e.2 == c) := by
  induction l with
  | nil => rfl
  | cons y ys ih =>
    by_cases hlt : x.2 < y.2
    · rw [insEntry, if_pos hlt]
      by_cases hy : y.2 = c
      · have hx : ¬ x.2 = c := by omega
        simp only [List.filter_cons, ih]
        simp [hy, hx]
      · simp only [List.filter_cons, ih]
        simp [hy]
    · rw [insEntry, if_neg hlt]

theorem sortEntries_stable (l : List (String × Nat)) (c : Nat) :
    (sortEntries l).filter (fun e => e.2 == c) =
      l.filter (fun e => e.2 == c) := by
  induction l with
  | nil => rfl
  | cons x xs ih =>
    rw [sortEntries, filter_insEntry, List.filter_cons, List.filter_cons, ih]

/-- Lookup of a count by key in the accumulated map. -/
def lookupN (k : String) : List (String × Nat) → Option Nat
  | [] => none
  | (k', n) :: rest => if k' = k then some n else lookupN k rest

theorem lookupN_bump_self (m : List (String × Nat)) (k : String) :
    lookupN k (bump m k) = some ((lookupN k m).getD 0 + 1) := by
  induction m with
  | nil => simp [bump, lookupN]
  | cons e rest ih =>
    obtain ⟨k', n⟩ := e
    by_cases h : k' = k
    · simp [bump, lookupN, h]
    · simp [bump, lookupN, h, ih]

theorem lookupN_bump_ne (m : List (String × Nat)) {k k' : String}
    (h : k' ≠ k) : lookupN k' (bump m k) = lookupN k' m := by
  have hk : ¬ (k = k') := fun he => h he.symm
  induction m with
  | nil => simp [bump, lookupN, hk]
  | cons e rest ih =>
    obtain ⟨k₀, n⟩ := e
    by_cases h0 : k₀ = k
    · subst h0
      simp [bump, lookupN, hk]
    · simp only [bump, if_neg h0, lookupN]
      by_cases h1 : k₀ = k'
      · simp [h1]
      · simp [h1, ih]

theorem keys_bump (m : List (String × Nat)) (k : String) :
    (bump m k).map Prod.fst =
      if k ∈ m.map Prod.fst then m.map Prod.fst else m.map Prod.fst ++ [k] := by
  induction m with
  | nil => simp [bump]
  | cons e rest ih =>
    obtain ⟨k₀, n⟩ := e
    by_cases h0 : k₀ = k
    · simp [bump, h0]
    · have : ¬ k = k₀ := fun he => h0 he.symm
      simp only [bump, if_neg h0, List.map_cons, List.mem_cons]
      rw [ih]
      by_cases hm : k ∈ rest.map Prod.fst
      · simp [hm, this]
      · simp [hm, this]

theorem keysNodup_bump (m : List (String × Nat)) (k : String)
    (h : (m.map Prod.fst).Nodup) : ((bump m k).map Prod.fst).Nodup := by
  rw [keys_bump]
  by_cases hm : k ∈ m.map Prod.fst
  · simpa [hm] using h
  · simp only [if_neg hm]
    simpa [List.nodup_append, hm] using h

theorem keysNodup_foldl_bump (ts : List String) :
    ∀ m : List (String × Nat), (m.map Prod.fst).Nodup →
      ((ts.foldl bump m).map Prod.fst).Nodup := by
  induction ts with
  | nil => intro m h; simpa using h
  | cons t ts ih =>
    intro m h
    exact ih (bump m t) (keysNodup_bump m t h)

theorem lookupN_of_mem {m : List (String × Nat)} (h : (m.map Prod.fst).Nodup)
    {k : String} {n : Nat} (hm : (k, n) ∈ m) : lookupN k m = some n := by
  induction m with
  | nil => simp at hm
  | cons e rest ih =>
    obtain ⟨k₀, n₀⟩ := e
    simp only [List.map_cons, List.nodup_cons] at h
    rcases List.mem_cons.mp hm with he | hm'
    · have hk : k = k₀ := congrArg Prod.fst he
      have hn : n = n₀ := congrArg Prod.snd he
      subst hk; subst hn
      simp [lookupN]
    · have hk : k₀ ≠ k := by
        intro he
        subst he
        exact h.1 (List.mem_map_of_mem Prod.fst hm')
      simp [lookupN, hk, ih h.2 hm']

theorem foldl_bump_lookup (ts : List String) : ∀ (m : List (String × Nat))
    (k : String),
    lookupN k (ts.foldl bump m) =
      (match lookupN k m with
       | some n => some (n + ts.count k)
       | none => if k ∈ ts then some (ts.count k) else none) := by
  induction ts with
  | nil =>
    intro m k
    cases h : lookupN k m <;> simp [h]
  | cons t ts ih =>
    intro m k
    rw [List.foldl_cons, ih]
    by_cases hk : k = t
    · subst hk
      rw [lookupN_bump_self]
      cases h : lookupN k m <;>
        simp [h, List.count_cons] <;> omega
    · rw [lookupN_bump_ne m hk]
      cases h : lookupN k m <;>
        simp [h, List.count_cons, hk]

theorem keys_foldl_bump (ts : List String) : ∀ m : List (String × Nat),
    (ts.foldl bump m).map Prod.fst =
      ts.foldl (fun a k => if k ∈ a then a else a ++ [k]) (m.map Prod.fst) := by
  induction ts with
  | nil => intro m; rfl
  | cons t ts ih =>
    intro m
    rw [List.foldl_cons, List.foldl_cons, ih, keys_bump]

theorem tallyAll_eq_fold (cells : List Cell) :
    tallyAll cells = (allTuples cells).foldl bump [] := by
  suffices h : ∀ m, cells.foldl
      (fun m c => if c.jsFalsy then m else (decodeCell c.jsToString).foldl bump m)
      m = (allTuples cells).foldl bump m by
    exact h []
  induction cells with
  | nil => intro m; rfl
  | cons c cs ih =>
    intro m
    rw [List.foldl_cons]
    by_cases hf : c.jsFalsy
    · have h1 : allTuples (c :: cs) = allTuples cs := by
        simp [allTuples, hf]
      rw [h1, if_pos hf]
      exact ih m
    · have h1 : allTuples (c :: cs) = decodeCell c.jsToString ++ allTuples cs := by
        simp [allTuples, hf]
      rw [h1, if_neg hf, List.foldl_append]
      exact ih _

/-- Claim C3: the Aggregator renders the accumulated entries as
`"<count>x<tuple>"` joined by `", "`, sorted by descending count with ties
kept in first-seen order; keys are the exact decoded tuple strings with
their exact occurrence counts, and an input with no tuples at all yields
the empty string. -/
theorem aggregateOptions_sorted_stable (cells : List Cell) :
    aggregateOptions cells =
      joinSep ", " ((sortEntries (tallyAll cells)).map renderEntry) ∧
    (sortEntries (tallyAll cells)).Pairwise (fun a b => b.2 ≤ a.2) ∧
    (∀ c : Nat, (sortEntries (tallyAll cells)).filter (fun e => e.2 == c) =
      (tallyAll cells).filter (fun e => e.2 == c)) ∧
    (∀ k n, (k, n) ∈ tallyAll cells → n = (allTuples cells).count k) ∧
    (tallyAll cells).map Prod.fst = firstSeen (allTuples cells) ∧
    (allTuples cells = [] → aggregateOptions cells = "") := by
  refine ⟨rfl, sortEntries_pairwise _, fun c => sortEntries_stable _ c,
    ?_, ?_, ?_⟩
  · intro k n hm
    have hnd : ((tallyAll cells).map Prod.fst).Nodup := by
      rw [tallyAll_eq_fold]
      exact keysNodup_foldl_bump _ [] (by simp)
    have hl := lookupN_of_mem hnd hm
    rw [tallyAll_eq_fold] at hl
    rw [foldl_bump_lookup] at hl
    simp only [lookupN] at hl
    by_cases hmem : k ∈ allTuples cells
    · rw [if_pos hmem] at hl
      exact (Option.some.injEq .. ▸ hl).symm
    · rw [if_neg hmem] at hl
      exact absurd hl (by simp)
  · rw [tallyAll_eq_fold, keys_foldl_bump]
    rfl
  · intro h
    have : tallyAll cells = [] := by rw [tallyAll_eq_fold, h]; rfl
    rw [aggregateOptions, this]
    rfl

/-- Concrete run of the Aggregator law on the spec's scenario, plus the
empty-input clause at a blank cell. -/
theorem aggregateOptions_sorted_stable_witness :
    aggregateOptions
        [Cell.str "(egg, croissant), (egg, croissant), (no egg, muffin)"] =
      joinSep ", " ((sortEntries (tallyAll
        [Cell.str "(egg, croissant), (egg, croissant), (no egg, muffin)"])).map
          renderEntry) ∧
    (sortEntries (tallyAll
      [Cell.str "(egg, croissant), (egg, croissant), (no egg, muffin)"])).Pairwise
        (fun a b => b.2 ≤ a.2) ∧
    aggregateOptions [Cell.str ""] = "" :=
  ⟨(aggregateOptions_sorted_stable
      [Cell.str "(egg, croissant), (egg, croissant), (no egg, muffin)"]).1,
   (aggregateOptions_sorted_stable
      [Cell.str "(egg, croissant), (egg, croissant), (no egg, muffin)"]).2.1,
   (aggregateOptions_sorted_stable [Cell.str ""]).2.2.2.2.2 (by rfl)⟩

/-! ## Journal replay (claim C4) -/

theorem lookupIdx_some_get {k : String} {headers : List String} :
    ∀ {i : Nat}, lookupIdx k headers = some i → headers.get? i = some k := by
  induction headers with
  | nil => intro i h; simp [lookupIdx] at h
  | cons hd tl ih =>
    intro i h
    by_cases he : hd = k
    · simp [lookupIdx, he] at h
      subst h
      simp [he]
    · simp only [lookupIdx, if_neg he, Option.map_eq_some'] at h
      obtain ⟨j, hj, rfl⟩ := h
      simpa using ih hj

theorem lookupIdx_lt {k : String} {headers : List String} {i : Nat}
    (h : lookupIdx k headers = some i) : i < headers.length := by
  have := lookupIdx_some_get h
  exact List.get?_eq_some.mp this |>.1

theorem applyEntry_get?_ne (headers : List String) (r : List Cell)
    (e : String × List (List String)) (i : Nat)
    (h1 : lookupIdx e.1 headers ≠ some i)
    (h2 : lookupIdx (e.1 ++ " - options") headers ≠ some i) :
    (applyEntry headers r e).get? i = r.get? i := by
  unfold applyEntry
  rcases hc : lookupIdx e.1 headers with _ | j <;>
    rcases hd : lookupIdx (e.1 ++ " - options") headers with _ | j' <;>
      simp only [hc, hd]
  · exact List.get?_set_ne _ _ (fun (he : j' = i) => h2 (he ▸ hd))
  · exact List.get?_set_ne _ _ (fun (he : j = i) => h1 (he ▸ hc))
  · rw [List.get?_set_ne _ _ (fun (he : j' = i) => h2 (he ▸ hd)),
      List.get?_set_ne _ _ (fun (he : j = i) => h1 (he ▸ hc))]

theorem foldl_applyEntry_get? (headers : List String) (i : Nat) :
    ∀ (entries : List (String × List (List String))) (r : List Cell),
    (∀ e ∈ entries, lookupIdx e.1 headers ≠ some i ∧
      lookupIdx (e.1 ++ " - options") headers ≠ some i) →
    (entries.foldl (applyEntry headers) r).get? i = r.get? i := by
  intro entries
  induction entries with
  | nil => intro r _; rfl
  | cons e es ih =>
    intro r h
    rw [List.foldl_cons, ih _ (fun e' he' => h e' (List.mem_cons_of_mem e he'))]
    exact applyEntry_get?_ne headers r e i (h e (List.mem_cons_self e es)).1
      (h e (List.mem_cons_self e es)).2

theorem keys_addAll (m : List (String × List (List String))) (k : String)
    (vs : List (List String)) :
    (addAll m k vs).map Prod.fst =
      if k ∈ m.map Prod.fst then m.map Prod.fst else m.map Prod.fst ++ [k] := by
  induction m with
  | nil => simp [addAll]
  | cons e rest ih =>
    obtain ⟨k₀, u⟩ := e
    by_cases h0 : k₀ = k
    · simp [addAll, h0]
    · have hne : ¬ k = k₀ := fun he => h0 he.symm
      simp only [addAll, if_neg h0, List.map_cons, List.mem_cons]
      rw [ih]
      by_cases hm : k ∈ rest.map Prod.fst
      · simp [hm, hne]
      · simp [hm, hne]

theorem keys_buildItemMap_subset (items : List OrderItem) :
    ∀ (acc : List (String × List (List String))),
    ((items.foldl (fun m it => addAll m it.name (itemInstances it)) acc).map
      Prod.fst) ⊆ acc.map Prod.fst ++ items.map OrderItem.name := by
  induction items with
  | nil => intro acc; simp
  | cons it its ih =>
    intro acc
    rw [List.foldl_cons]
    refine List.Subset.trans (ih _) ?_
    rw [keys_addAll]
    by_cases hm : it.name ∈ acc.map Prod.fst
    · rw [if_pos hm]
      intro x hx
      rcases List.mem_append.mp hx with hx | hx
      · exact List.mem_append_left _ hx
      · exact List.mem_append_right _ (List.mem_cons_of_mem _ hx)
    · rw [if_neg hm]
      intro x hx
      rcases List.mem_append.mp hx with hx | hx
      · rcases List.mem_append.mp hx with hx | hx
        · exact List.mem_append_left _ hx
        · simp only [List.mem_singleton] at hx
          exact List.mem_append_right _ (hx ▸ List.mem_cons_self _ _)
      · exact List.mem_append_right _ (List.mem_cons_of_mem _ hx)

theorem optionsCol_ne_date (a : String) : a ++ " - options" ≠ "Date" := by
  intro h
  have hlen : (a ++ " - options").length = ("Date" : String).length := by rw [h]
  rw [String.length_append] at hlen
  have h10 : (" - options" : String).length = 10 := rfl
  have h4 : ("Date" : String).length = 4 := rfl
  omega

theorem buildOrderRow_get0 (headers : List String) (date : Cell)
    (nm ph dl em : String) (items : List OrderItem)
    (h0 : headers.get? 0 = some "Date")
    (hn : ∀ it ∈ items, it.name ≠ "Date") :
    (buildOrderRow headers date nm ph dl em items).get? 0 = some date := by
  unfold buildOrderRow
  rw [foldl_applyEntry_get?]
  · have hlen : 0 < headers.length := by
      rcases headers with _ | ⟨h, t⟩
      · simp at h0
      · simp
    rw [List.get?_set_ne _ _ (by omega), List.get?_set_ne _ _ (by omega),
      List.get?_set_ne _ _ (by omega), List.get?_set_ne _ _ (by omega)]
    rw [List.get?_set_eq_of_lt]
    simpa using hlen
  · intro e he
    have hkey : e.1 ∈ items.map OrderItem.name := by
      have := keys_buildItemMap_subset items [] (List.mem_map_of_mem Prod.fst he)
      simpa using this
    obtain ⟨it, hit, hname⟩ := List.mem_map.mp hkey
    constructor
    · intro hc
      have := lookupIdx_some_get hc
      rw [h0] at this
      exact hn it hit (by rw [hname]; exact (Option.some.injEq .. ▸ this).symm ▸ rfl)
    · intro hc
      have := lookupIdx_some_get hc
      rw [h0] at this
      have heq : e.1 ++ " - options" = "Date" := by
        injection this with h'
        exact h'.symm
      exact optionsCol_ne_date e.1 heq

theorem replay_foldl_spec (headers : List String) (journal : List JournalEntry) :
    ∀ (rows : List (List Cell)) (cnt : Nat),
    journal.foldl (replayStep headers) (rows, cnt) =
      (rows ++ journal.filterMap (fun e => e.itemsJson.map fun items =>
        buildOrderRow headers e.date e.name e.phone e.delivery e.email items),
       cnt + (journal.filter (fun e => e.itemsJson.isSome)).length) := by
  induction journal with
  | nil => intro rows cnt; simp
  | cons e rest ih =>
    intro rows cnt
    rw [List.foldl_cons]
    rcases hj : e.itemsJson with _ | items
    · simp only [replayStep, hj]
      rw [ih]
      simp [List.filterMap_cons, List.filter_cons, hj]
    · simp only [replayStep, hj]
      rw [ih]
      simp only [List.filterMap_cons, List.filter_cons, hj, Option.map_some',
        Option.isSome_some, if_true, List.length_cons, Prod.mk.injEq]
      refine ⟨by simp, by omega⟩

theorem length_filterMap_isSome (headers : List String)
    (journal : List JournalEntry) :
    (journal.filterMap (fun e => e.itemsJson.map fun items =>
      buildOrderRow headers e.date e.name e.phone e.delivery e.email items)).length =
      (journal.filter (fun e => e.itemsJson.isSome)).length := by
  induction journal with
  | nil => rfl
  | cons e rest ih =>
    rcases hj : e.itemsJson with _ | items <;>
      simp [List.filterMap_cons, List.filter_cons, hj, ih]

/-- Claim C4: the rebuild's replay produces exactly one projection row per
journal entry whose item payload parses, in journal order, each row
carrying the entry's original stored timestamp in its date cell; entries
with unparsable payloads are skipped and excluded from the replayed count,
so a 5-entry journal with exactly one unparsable entry yields 4 rows and
reports 4 replayed. -/
theorem replay_one_row_per_parsable (headers : List String)
    (journal : List JournalEntry) :
    (replay headers journal).1 = journal.filterMap (fun e => e.itemsJson.map
      fun items => buildOrderRow headers e.date e.name e.phone e.delivery
        e.email items) ∧
    (replay headers journal).2 =
      (journal.filter (fun e => e.itemsJson.isSome)).length ∧
    (headers.get? 0 = some "Date" →
      (∀ e ∈ journal, ∀ it ∈ e.itemsJson.getD [], it.name ≠ "Date") →
      (replay headers journal).1.map (fun r => r.get? 0) =
        (journal.filter (fun e => e.itemsJson.isSome)).map
          (fun e => some e.date)) ∧
    (journal.length = 5 →
      (journal.filter (fun e => e.itemsJson.isSome)).length = 4 →
      (replay headers journal).1.length = 4 ∧ (replay headers journal).2 = 4) := by
  have hspec := replay_foldl_spec headers journal [] 0
  have hrows : (replay headers journal).1 = journal.filterMap
      (fun e => e.itemsJson.map fun items => buildOrderRow headers e.date
        e.name e.phone e.delivery e.email items) := by
    rw [replay, hspec]
    simp
  have hcnt : (replay headers journal).2 =
      (journal.filter (fun e => e.itemsJson.isSome)).length := by
    rw [replay, hspec]
    simp
  refine ⟨hrows, hcnt, ?_, ?_⟩
  · intro h0 hn
    rw [hrows]
    clear hspec hrows hcnt
    induction journal with
    | nil => rfl
    | cons e rest ih =>
      rcases hj : e.itemsJson with _ | items
      · simp only [List.filterMap_cons, List.filter_cons, hj]
        exact ih fun e' he' => hn e' (List.mem_cons_of_mem _ he')
      · simp only [List.filterMap_cons, List.filter_cons, hj, Option.map_some',
          Option.isSome_some, if_true, List.map_cons]
        have hhead := buildOrderRow_get0 headers e.date e.name e.phone
          e.delivery e.email items h0 (by
            have := hn e (List.mem_cons_self _ _)
            rw [hj] at this
            simpa using this)
        rw [hhead, ih fun e' he' => hn e' (List.mem_cons_of_mem _ he')]
  · intro _ h4
    refine ⟨?_, by rw [hcnt, h4]⟩
    rw [hrows, length_filterMap_isSome, h4]

/-- A sample column schema for concrete replay runs. -/
def sampleHeaders : List String :=
  ["Date", "Name", "Phone", "Delivery", "Email", "bagel", "bagel - options"]

/-- A sample 5-entry journal whose third entry has an unparsable payload. -/
def sampleJournal : List JournalEntry :=
  [⟨Cell.date 1, "a", "p", "d", "e", some []⟩,
   ⟨Cell.date 2, "b", "p", "d", "e",
     some [⟨"bagel", some [["egg"]], none, none⟩]⟩,
   ⟨Cell.date 3, "c", "p", "d", "e", none⟩,
   ⟨Cell.date 4, "d", "p", "d", "e",
     some [⟨"bagel", none, some 2, some ["egg"]⟩]⟩,
   ⟨Cell.date 5, "e", "p", "d", "e", some []⟩]

theorem replay_one_row_per_parsable_witness :
    ((replay sampleHeaders sampleJournal).1.map (fun r => r.get? 0) =
      (sampleJournal.filter (fun e => e.itemsJson.isSome)).map
        (fun e => some e.date)) ∧
    (replay sampleHeaders sampleJournal).1.length = 4 ∧
    (replay sampleHeaders sampleJournal).2 = 4 :=
  ⟨(replay_one_row_per_parsable sampleHeaders sampleJournal).2.2.1
      (by rfl) (by decide),
   (replay_one_row_per_parsable sampleHeaders sampleJournal).2.2.2
      (by rfl) (by rfl)⟩

/-! ## Instances with no selected options (claim C5) -/

theorem data_append (a b : String) : (a ++ b).data = a.data ++ b.data := rfl

theorem renderTuple_ne_empty {opts : List String} (h : opts ≠ []) :
    renderTuple opts ≠ "" := by
  rw [renderTuple, if_neg h]
  intro he
  have := congrArg String.data he
  rw [data_append, data_append] at this
  simp at this

theorem itemInstances_someOnly (name : String) (insts : List (List String)) :
    itemInstances ⟨name, some insts, none, none⟩ = insts.map instOpts := by
  by_cases h : insts = []
  · subst h; simp [itemInstances]
  · simp [itemInstances, h]

theorem renderedOf_middle_nil (A B : List (List String)) :
    renderedOf (A ++ [] :: B) = renderedOf (A ++ B) := by
  simp [renderedOf, List.map_append, List.filter_append, renderTuple]

theorem name_ne_optionsCol (name : String) : name ≠ name ++ " - options" := by
  intro h
  have hlen : name.length = (name ++ " - options").length := by rw [← h]
  rw [String.length_append] at hlen
  have h10 : (" - options" : String).length = 10 := rfl
  omega

theorem singleItem_row_cells (headers : List String) (date : Cell)
    (nm ph dl em name : String) (insts : List (List String)) (i j : Nat)
    (hi : lookupIdx name headers = some i)
    (hj : lookupIdx (name ++ " - options") headers = some j) :
    (buildOrderRow headers date nm ph dl em
        [⟨name, some insts, none, none⟩]).get? i =
      some (Cell.num (insts.length)) ∧
    (buildOrderRow headers date nm ph dl em
        [⟨name, some insts, none, none⟩]).get? j =
      some (Cell.str (encodeInstances (insts.map instOpts))) := by
  have hii := lookupIdx_lt hi
  have hjj := lookupIdx_lt hj
  have hne : i ≠ j := by
    intro he
    subst he
    have g1 := lookupIdx_some_get hi
    have g2 := lookupIdx_some_get hj
    rw [g1] at g2
    have : name = name ++ " - options" := by injection g2
    exact name_ne_optionsCol name this
  unfold buildOrderRow buildItemMap
  simp only [List.foldl_cons, List.foldl_nil, addAll]
  unfold applyEntry
  simp only [hi, hj, itemInstances_someOnly]
  have hbase : ∀ r : List Cell, r.length = headers.length →
      ((r.set i (Cell.num ((insts.map instOpts).length))).set j
        (Cell.str (encodeInstances (insts.map instOpts)))).get? i =
        some (Cell.num insts.length) ∧
      ((r.set i (Cell.num ((insts.map instOpts).length))).set j
        (Cell.str (encodeInstances (insts.map instOpts)))).get? j =
        some (Cell.str (encodeInstances (insts.map instOpts))) := by
    intro r hr
    constructor
    · rw [List.get?_set_ne _ _ (fun (he : j = i) => hne he.symm)]
      rw [List.get?_set_eq_of_lt]
      · simp
      · rw [hr]; exact hii
    · rw [List.get?_set_eq_of_lt]
      rw [List.length_set, hr]
      exact hjj
  exact hbase _ (by simp)

/-- Claim C5: an instance with zero non-empty option selections increments
the item-count column by one but contributes no tuple to the options
column string, so it changes nothing in the totals aggregation; the
instance count and the rendered-tuple count are both preserved even when
they diverge. -/
theorem emptyInstance_counts_not_tuples (headers : List String) (date : Cell)
    (nm ph dl em name : String) (pre post : List (List String))
    (e : List String) (i j : Nat)
    (he : instOpts e = [])
    (hi : lookupIdx name headers = some i)
    (hj : lookupIdx (name ++ " - options") headers = some j) :
    (buildOrderRow headers date nm ph dl em
        [⟨name, some (pre ++ e :: post), none, none⟩]).get? i =
      some (Cell.num ((pre ++ post).length + 1)) ∧
    (buildOrderRow headers date nm ph dl em
        [⟨name, some (pre ++ post), none, none⟩]).get? i =
      some (Cell.num ((pre ++ post).length)) ∧
    (buildOrderRow headers date nm ph dl em
        [⟨name, some (pre ++ e :: post), none, none⟩]).get? j =
      (buildOrderRow headers date nm ph dl em
        [⟨name, some (pre ++ post), none, none⟩]).get? j ∧
    (renderedOf ((pre ++ e :: post).map instOpts)).length =
      (renderedOf ((pre ++ post).map instOpts)).length ∧
    aggregateOptions
        [Cell.str (encodeInstances ((pre ++ e :: post).map instOpts))] =
      aggregateOptions
        [Cell.str (encodeInstances ((pre ++ post).map instOpts))] := by
  have hmap : (pre ++ e :: post).map instOpts =
      pre.map instOpts ++ [] :: post.map instOpts := by
    rw [List.map_append, List.map_cons, he]
  have hmap2 : (pre ++ post).map instOpts =
      pre.map instOpts ++ post.map instOpts := List.map_append ..
  have hrend : renderedOf ((pre ++ e :: post).map instOpts) =
      renderedOf ((pre ++ post).map instOpts) := by
    rw [hmap, hmap2, renderedOf_middle_nil]
  have henc : encodeInstances ((pre ++ e :: post).map instOpts) =
      encodeInstances ((pre ++ post).map instOpts) := by
    rw [encodeInstances, encodeInstances, hrend]
  obtain ⟨c1, c2⟩ := singleItem_row_cells headers date nm ph dl em name
    (pre ++ e :: post) i j hi hj
  obtain ⟨d1, d2⟩ := singleItem_row_cells headers date nm ph dl em name
    (pre ++ post) i j hi hj
  refine ⟨?_, ?_, ?_, by rw [hrend], by rw [henc]⟩
  · rw [c1]
    simp
    omega
  · rw [d1]
  · rw [c2, d2, henc]

/-- Concrete run of the empty-instance law: one `["", ""]` instance raises
the count to 2 while the options cell still shows a single tuple. -/
theorem emptyInstance_counts_not_tuples_witness :
    (buildOrderRow sampleHeaders (Cell.date 1) "n" "p" "d" "e"
        [⟨"bagel", some ([["egg"]] ++ ["", ""] :: []), none, none⟩]).get? 5 =
      some (Cell.num 2) ∧
    (buildOrderRow sampleHeaders (Cell.date 1) "n" "p" "d" "e"
        [⟨"bagel", some ([["egg"]] ++ []), none, none⟩]).get? 5 =
      some (Cell.num 1) ∧
    (buildOrderRow sampleHeaders (Cell.date 1) "n" "p" "d" "e"
        [⟨"bagel", some ([["egg"]] ++ ["", ""] :: []), none, none⟩]).get? 6 =
      (buildOrderRow sampleHeaders (Cell.date 1) "n" "p" "d" "e"
        [⟨"bagel", some ([["egg"]] ++ []), none, none⟩]).get? 6 ∧
    (renderedOf (([["egg"]] ++ ["", ""] :: []).map instOpts)).length =
      (renderedOf (([["egg"]] ++ []).map instOpts)).length ∧
    aggregateOptions
        [Cell.str (encodeInstances (([["egg"]] ++ ["", ""] :: []).map instOpts))] =
      aggregateOptions
        [Cell.str (encodeInstances (([["egg"]] ++ []).map instOpts))] :=
  emptyInstance_counts_not_tuples sampleHeaders (Cell.date 1) "n" "p" "d" "e"
    "bagel" [["egg"]] [] ["", ""] 5 6 (by rfl) (by rfl) (by rfl)

/-! ## Merging of same-name line items (claim C10) -/

/-- Lookup in the grouped item map. -/
def mlookup (k : String) : List (String × List (List String)) →
    Option (List (List String))
  | [] => none
  | (k', v) :: rest => if k' = k then some v else mlookup k rest

/-- All instances contributed for one item name across the payload, in
payload order. -/
def flatFor (k : String) (items : List OrderItem) : List (List String) :=
  (items.filter (fun it => it.name == k)).flatMap itemInstances

theorem mlookup_addAll_self (m : List (String × List (List String)))
    (k : String) (vs : List (List String)) :
    mlookup k (addAll m k vs) = some ((mlookup k m).getD [] ++ vs) := by
  induction m with
  | nil => simp [addAll, mlookup]
  | cons e rest ih =>
    obtain ⟨k₀, u⟩ := e
    by_cases h : k₀ = k
    · simp [addAll, mlookup, h]
    · simp [addAll, mlookup, h, ih]

theorem mlookup_addAll_ne (m : List (String × List (List String)))
    {k k' : String} (vs : List (List String)) (h : k' ≠ k) :
    mlookup k' (addAll m k vs) = mlookup k' m := by
  have hk : ¬ (k = k') := fun he => h he.symm
  induction m with
  | nil => simp [addAll, mlookup, hk]
  | cons e rest ih =>
    obtain ⟨k₀, u⟩ := e
    by_cases h0 : k₀ = k
    · subst h0
      simp [addAll, mlookup, hk]
    · simp only [addAll, if_neg h0, mlookup]
      by_cases h1 : k₀ = k'
      · simp [h1]
      · simp [h1, ih]

theorem mlookup_buildFold (items : List OrderItem) :
    ∀ (m : List (String × List (List String))) (k : String),
    mlookup k (items.foldl (fun m it => addAll m it.name (itemInstances it)) m) =
      (match mlookup k m with
       | some v => some (v ++ flatFor k items)
       | none =>
         if k ∈ items.map OrderItem.name then some (flatFor k items) else none) := by
  induction items with
  | nil =>
    intro m k
    cases h : mlookup k m <;> simp [h, flatFor]
  | cons it its ih =>
    intro m k
    rw [List.foldl_cons, ih]
    by_cases hk : it.name = k
    · subst hk
      rw [mlookup_addAll_self]
      have hflat : flatFor it.name (it :: its) =
          itemInstances it ++ flatFor it.name its := by
        simp [flatFor, List.filter_cons]
      cases h : mlookup it.name m <;>
        simp [h, hflat, List.mem_cons]
    · have hne : k ≠ it.name := fun he => hk he.symm
      rw [mlookup_addAll_ne _ _ hne]
      have hflat : flatFor k (it :: its) = flatFor k its := by
        simp [flatFor, List.filter_cons, hk]
      cases h : mlookup k m <;>
        simp [h, hflat, List.mem_cons, hne]

theorem keysNodup_addAll (m : List (String × List (List String)))
    (k : String) (vs : List (List String))
    (h : (m.map Prod.fst).Nodup) : ((addAll m k vs).map Prod.fst).Nodup := by
  rw [keys_addAll]
  by_cases hm : k ∈ m.map Prod.fst
  · simpa [hm] using h
  · simp only [if_neg hm]
    simpa [List.nodup_append, hm] using h

theorem keysNodup_buildItemMap (items : List OrderItem) :
    ∀ (m : List (String × List (List String))), (m.map Prod.fst).Nodup →
    (((items.foldl (fun m it => addAll m it.name (itemInstances it)) m)).map
      Prod.fst).Nodup := by
  induction items with
  | nil => intro m h; simpa using h
  | cons it its ih =>
    intro m h
    exact ih _ (keysNodup_addAll m it.name (itemInstances it) h)

theorem mlookup_decomp {m : List (String × List (List String))}
    (hnd : (m.map Prod.fst).Nodup) {k : String} {v : List (List String)}
    (h : mlookup k m = some v) :
    ∃ A B, m = A ++ (k, v) :: B ∧ k ∉ A.map Prod.fst ∧ k ∉ B.map Prod.fst := by
  induction m with
  | nil => simp [mlookup] at h
  | cons e rest ih =>
    obtain ⟨k₀, u⟩ := e
    simp only [List.map_cons, List.nodup_cons] at hnd
    by_cases h0 : k₀ = k
    · subst h0
      rw [mlookup, if_pos rfl] at h
      refine ⟨[], rest, ?_, by simp, ?_⟩
      · simpa using congrArg (fun v => (k₀, v) :: rest)
          (Option.some.injEq .. ▸ h :)
      · exact fun hm => hnd.1 hm
    · rw [mlookup, if_neg h0] at h
      obtain ⟨A, B, hAB, hA, hB⟩ := ih hnd.2 h
      exact ⟨(k₀, u) :: A, B, by rw [hAB]; rfl,
        by simpa [h0] using And.intro (fun he => h0 he.symm) hA, hB⟩

theorem applyEntry_length (headers : List String) (r : List Cell)
    (e : String × List (List String)) :
    (applyEntry headers r e).length = r.length := by
  unfold applyEntry
  rcases hc : lookupIdx e.1 headers with _ | j <;>
    rcases hd : lookupIdx (e.1 ++ " - options") headers with _ | j' <;>
      simp [hc, hd]

theorem foldl_applyEntry_length (headers : List String) :
    ∀ (entries : List (String × List (List String))) (r : List Cell),
    (entries.foldl (applyEntry headers) r).length = r.length := by
  intro entries
  induction entries with
  | nil => intro r; rfl
  | cons e es ih =>
    intro r
    rw [List.foldl_cons, ih, applyEntry_length]

theorem applyEntry_target (headers : List String) (r : List Cell)
    (k : String) (v : List (List String)) (i j : Nat)
    (hi : lookupIdx k headers = some i)
    (hj : lookupIdx (k ++ " - options") headers = some j)
    (hr : r.length = headers.length) :
    (applyEntry headers r (k, v)).get? i = some (Cell.num v.length) ∧
    (applyEntry headers r (k, v)).get? j =
      some (Cell.str (encodeInstances v)) := by
  have hii := lookupIdx_lt hi
  have hjj := lookupIdx_lt hj
  have hne : i ≠ j := by
    intro he
    subst he
    have g1 := lookupIdx_some_get hi
    have g2 := lookupIdx_some_get hj
    rw [g1] at g2
    have : k = k ++ " - options" := by injection g2
    exact name_ne_optionsCol k this
  unfold applyEntry
  simp only [hi, hj]
  constructor
  · rw [List.get?_set_ne _ _ (fun (he : j = i) => hne he.symm)]
    rw [List.get?_set_eq_of_lt]
    rw [hr]
    exact hii
  · rw [List.get?_set_eq_of_lt]
    rw [List.length_set, hr]
    exact hjj

theorem applyEntry_id (headers : List String) (r : List Cell)
    (e : String × List (List String))
    (h1 : lookupIdx e.1 headers = none)
    (h2 : lookupIdx (e.1 ++ " - options") headers = none) :
    applyEntry headers r e = r := by
  unfold applyEntry
  simp [h1, h2]

theorem filter_addAll_self (bad : String)
    (m : List (String × List (List String))) (vs : List (List String)) :
    (addAll m bad vs).filter (fun e => e.1 != bad) =
      m.filter (fun e => e.1 != bad) := by
  induction m with
  | nil => simp [addAll]
  | cons e rest ih =>
    obtain ⟨k₀, u⟩ := e
    by_cases h0 : k₀ = bad
    · subst h0
      simp [addAll, List.filter_cons]
    · simp [addAll, List.filter_cons, h0, ih]

theorem filter_addAll_ne (bad : String)
    (m : List (String × List (List String))) {k : String}
    (vs : List (List String)) (h : k ≠ bad) :
    (addAll m k vs).filter (fun e => e.1 != bad) =
      addAll (m.filter (fun e => e.1 != bad)) k vs := by
  induction m with
  | nil => simp [addAll, List.filter_cons, h]
  | cons e rest ih =>
    obtain ⟨k₀, u⟩ := e
    by_cases h0 : k₀ = k
    · subst h0
      simp [addAll, List.filter_cons, h]
    · by_cases hb : k₀ = bad
      · subst hb
        simp [addAll, List.filter_cons, h0, ih]
      · simp [addAll, List.filter_cons, h0, hb, ih]

theorem buildFold_filter (items : List OrderItem) (bad : String) :
    ∀ (m : List (String × List (List String))),
    ((items.filter (fun it => it.name != bad)).foldl
        (fun m it => addAll m it.name (itemInstances it))
        (m.filter (fun e => e.1 != bad))) =
      (items.foldl (fun m it => addAll m it.name (itemInstances it)) m).filter
        (fun e => e.1 != bad) := by
  induction items with
  | nil => intro m; rfl
  | cons it its ih =>
    intro m
    by_cases h0 : it.name = bad
    · have hb : (it.name != bad) = false := by simp [h0]
      rw [List.filter_cons, List.foldl_cons, hb,
        if_neg (by simp : ¬ (false = true))]
      rw [← ih, h0, filter_addAll_self]
    · have hb : (it.name != bad) = true := by simp [h0]
      rw [List.filter_cons, List.foldl_cons, hb,
        if_pos rfl, List.foldl_cons, ← ih, filter_addAll_ne bad m _ h0]

theorem foldl_applyEntry_filter (headers : List String) (bad : String)
    (h1 : lookupIdx bad headers = none)
    (h2 : lookupIdx (bad ++ " - options") headers = none) :
    ∀ (m : List (String × List (List String))) (r : List Cell),
    m.foldl (applyEntry headers) r =
      (m.filter (fun e => e.1 != bad)).foldl (applyEntry headers) r := by
  intro m
  induction m with
  | nil => intro r; rfl
  | cons e rest ih =>
    obtain ⟨k₀, u⟩ := e
    intro r
    by_cases h0 : k₀ = bad
    · subst h0
      rw [List.foldl_cons, applyEntry_id headers r (k₀, u) h1 h2,
        List.filter_cons]
      simp only [bne_self_eq_false]
      exact ih r
    · rw [List.foldl_cons, List.filter_cons]
      have hb : ((k₀, u).1 != bad) = true := by simp [h0]
      rw [hb]
      simp only [if_true]
      rw [List.foldl_cons]
      exact ih _

theorem buildOrderRow_eq_fold (headers : List String) (date : Cell)
    (nm ph dl em : String) (items : List OrderItem) :
    buildOrderRow headers date nm ph dl em items =
      (buildItemMap items).foldl (applyEntry headers)
        ((((((List.replicate headers.length (Cell.str "")).set 0 date).set 1
          (Cell.str nm)).set 2 (Cell.str ph)).set 3 (Cell.str dl)).set 4
            (Cell.str em)) := rfl

/-- Claim C10 (implicit behavior of the row builder): line items sharing
one item name merge — the item-count column receives the total number of
instances across them and the options column the tuples concatenated in
payload order (`flatFor`); and a line item whose name matches no column
contributes nothing to the row. -/
theorem sameName_lineItems_merge (headers : List String) (date : Cell)
    (nm ph dl em name : String) (items : List OrderItem) (i j : Nat)
    (hmem : name ∈ items.map OrderItem.name)
    (hi : lookupIdx name headers = some i)
    (hj : lookupIdx (name ++ " - options") headers = some j)
    (hdisj : ∀ k ∈ items.map OrderItem.name, k ≠ name →
      (lookupIdx k headers ≠ some i ∧
        lookupIdx (k ++ " - options") headers ≠ some i) ∧
      (lookupIdx k headers ≠ some j ∧
        lookupIdx (k ++ " - options") headers ≠ some j)) :
    ((buildOrderRow headers date nm ph dl em items).get? i =
        some (Cell.num (flatFor name items).length) ∧
      (buildOrderRow headers date nm ph dl em items).get? j =
        some (Cell.str (encodeInstances (flatFor name items)))) ∧
    (∀ (bad : String), lookupIdx bad headers = none →
      lookupIdx (bad ++ " - options") headers = none →
      ∀ (items' : List OrderItem) (date' : Cell) (nm' ph' dl' em' : String),
      buildOrderRow headers date' nm' ph' dl' em' items' =
        buildOrderRow headers date' nm' ph' dl' em'
          (items'.filter (fun it => it.name != bad))) := by
  constructor
  · have hlk : mlookup name (buildItemMap items) = some (flatFor name items) := by
      rw [buildItemMap, mlookup_buildFold]
      simp only [mlookup]
      rw [if_pos hmem]
    have hnd : ((buildItemMap items).map Prod.fst).Nodup :=
      keysNodup_buildItemMap items [] (by simp)
    obtain ⟨A, B, hAB, hA, hB⟩ := mlookup_decomp hnd hlk
    have hkeys := keys_buildItemMap_subset items []
    rw [buildOrderRow_eq_fold, hAB, List.foldl_append, List.foldl_cons]
    have hBdisj : ∀ e ∈ B, (lookupIdx e.1 headers ≠ some i ∧
        lookupIdx (e.1 ++ " - options") headers ≠ some i) ∧
        (lookupIdx e.1 headers ≠ some j ∧
          lookupIdx (e.1 ++ " - options") headers ≠ some j) := by
      intro e heB
      have hkey : e.1 ∈ items.map OrderItem.name := by
        have : e.1 ∈ ((buildItemMap items).map Prod.fst) := by
          rw [hAB]
          simp only [List.map_append, List.map_cons]
          exact List.mem_append_right _
            (List.mem_cons_of_mem _ (List.mem_map_of_mem Prod.fst heB))
        simpa using hkeys this
      have hne : e.1 ≠ name := by
        intro he
        exact hB (he ▸ List.mem_map_of_mem Prod.fst heB)
      exact hdisj e.1 hkey hne
    have hbase_len : ((((((List.replicate headers.length (Cell.str "")).set 0
        date).set 1 (Cell.str nm)).set 2 (Cell.str ph)).set 3
          (Cell.str dl)).set 4 (Cell.str em)).length = headers.length := by
      simp
    have htar := applyEntry_target headers
      (List.foldl (applyEntry headers)
        ((((((List.replicate headers.length (Cell.str "")).set 0 date).set 1
          (Cell.str nm)).set 2 (Cell.str ph)).set 3 (Cell.str dl)).set 4
            (Cell.str em)) A) name (flatFor name items) i j hi hj
      (by rw [foldl_applyEntry_length, hbase_len])
    constructor
    · rw [foldl_applyEntry_get? headers i B _
        (fun e he => ⟨(hBdisj e he).1.1, (hBdisj e he).1.2⟩)]
      exact htar.1
    · rw [foldl_applyEntry_get? headers j B _
        (fun e he => ⟨(hBdisj e he).2.1, (hBdisj e he).2.2⟩)]
      exact htar.2
  · intro bad hb1 hb2 items' date' nm' ph' dl' em'
    rw [buildOrderRow_eq_fold, buildOrderRow_eq_fold]
    rw [foldl_applyEntry_filter headers bad hb1 hb2 (buildItemMap items')]
    have hm : buildItemMap (items'.filter (fun it => it.name != bad)) =
        (buildItemMap items').filter (fun e => e.1 != bad) := by
      have h := buildFold_filter items' bad []
      simpa [buildItemMap] using h
    rw [hm]

/-- Concrete run of the merge law: two `"bagel"` line items (one with two
instances, one legacy with quantity 1) and one unknown item. -/
theorem sameName_lineItems_merge_witness :
    ((buildOrderRow sampleHeaders (Cell.date 1) "n" "p" "d" "e"
        [⟨"bagel", some [["egg"], ["x"]], none, none⟩,
         ⟨"mystery", some [["y"]], none, none⟩,
         ⟨"bagel", none, some 1, some ["z"]⟩]).get? 5 =
      some (Cell.num (flatFor "bagel"
        [⟨"bagel", some [["egg"], ["x"]], none, none⟩,
         ⟨"mystery", some [["y"]], none, none⟩,
         ⟨"bagel", none, some 1, some ["z"]⟩]).length) ∧
     (buildOrderRow sampleHeaders (Cell.date 1) "n" "p" "d" "e"
        [⟨"bagel", some [["egg"], ["x"]], none, none⟩,
         ⟨"mystery", some [["y"]], none, none⟩,
         ⟨"bagel", none, some 1, some ["z"]⟩]).get? 6 =
      some (Cell.str (encodeInstances (flatFor "bagel"
        [⟨"bagel", some [["egg"], ["x"]], none, none⟩,
         ⟨"mystery", some [["y"]], none, none⟩,
         ⟨"bagel", none, some 1, some ["z"]⟩])))) ∧
    (∀ (bad : String), lookupIdx bad sampleHeaders = none →
      lookupIdx (bad ++ " - options") sampleHeaders = none →
      ∀ (items' : List OrderItem) (date' : Cell) (nm' ph' dl' em' : String),
      buildOrderRow sampleHeaders date' nm' ph' dl' em' items' =
        buildOrderRow sampleHeaders date' nm' ph' dl' em'
          (items'.filter (fun it => it.name != bad))) :=
  sameName_lineItems_merge sampleHeaders (Cell.date 1) "n" "p" "d" "e" "bagel"
    [⟨"bagel", some [["egg"], ["x"]], none, none⟩,
     ⟨"mystery", some [["y"]], none, none⟩,
     ⟨"bagel", none, some 1, some ["z"]⟩] 5 6
    (by decide) (by rfl) (by rfl) (by decide)

/-! ## Option tuple codec round trip (claim C1) -/

theorem splitSepFuel_congr :
    ∀ (n : Nat) (cs : List Char), cs.length < n →
    ∀ (n' : Nat), cs.length < n' → ∀ (acc : List Char),
    splitSepFuel n cs acc = splitSepFuel n' cs acc := by
  intro n
  induction n with
  | zero => intro cs h; omega
  | succ m ih =>
    intro cs h n' h' acc
    rcases n' with _ | m'
    · omega
    · rcases cs with _ | ⟨c, rest⟩
      · rfl
      · simp only [List.length_cons] at h h'
        simp only [splitSepFuel]
        by_cases hc : c = ')' ∧ rest.head? = some ','
        · rw [if_pos hc, if_pos hc]
          rcases hd : dropWsOpen rest.tail with _ | rest'
          · exact ih rest (by omega) (m' + 1 - 1) (by omega) _
          · have h1 := dropWsOpen_length hd
            have h2 : rest.tail.length ≤ rest.length := by
              rcases rest with _ | ⟨x, xs⟩ <;> simp
            exact congrArg _ (ih rest' (by omega) m' (by omega) [])
        · rw [if_neg hc, if_neg hc]
          exact ih rest (by omega) m' (by omega) _

theorem splitSepAux_nil (acc : List Char) : splitSepAux [] acc = [acc.reverse] :=
  rfl

theorem splitSepAux_skip {c : Char} {rest : List Char} (acc : List Char)
    (h : ¬ (c = ')' ∧ rest.head? = some ',')) :
    splitSepAux (c :: rest) acc = splitSepAux rest (c :: acc) := by
  unfold splitSepAux
  simp only [List.length_cons, splitSepFuel, if_neg h]

theorem splitSepAux_sep {c : Char} {rest rest' : List Char} (acc : List Char)
    (h : c = ')' ∧ rest.head? = some ',')
    (hd : dropWsOpen rest.tail = some rest') :
    splitSepAux (c :: rest) acc = acc.reverse :: splitSepAux rest' [] := by
  unfold splitSepAux
  simp only [List.length_cons, splitSepFuel, if_pos h, hd]
  have h1 := dropWsOpen_length hd
  have h2 : rest.tail.length ≤ rest.length := by
    rcases rest with _ | ⟨x, xs⟩ <;> simp
  exact congrArg _ (splitSepFuel_congr _ rest' (by omega) _ (by omega) [])

theorem splitSepAux_skipAll :
    ∀ (cs rest acc : List Char), (∀ c ∈ cs, c ≠ ')') →
    splitSepAux (cs ++ rest) acc = splitSepAux rest (cs.reverse ++ acc) := by
  intro cs
  induction cs with
  | nil => intro rest acc _; simp
  | cons c cs' ih =>
    intro rest acc h
    have hc : c ≠ ')' := h c (List.mem_cons_self ..)
    rw [List.cons_append, splitSepAux_skip acc (fun hcc => hc hcc.1),
      ih rest (c :: acc) (fun x hx => h x (List.mem_cons_of_mem _ hx))]
    congr 1
    simp

theorem splitSepAux_atSep (Z acc : List Char) :
    splitSepAux (')' :: ',' :: ' ' :: '(' :: Z) acc =
      acc.reverse :: splitSepAux Z [] :=
  splitSepAux_sep acc ⟨rfl, rfl⟩ rfl

theorem splitSepAux_closeEnd (acc : List Char) :
    splitSepAux [')'] acc = [(')' :: acc).reverse] := by
  rw [splitSepAux_skip acc (by simp)]
  exact splitSepAux_nil _

/-- The encoded character stream of a list of tuple interiors:
`(I1), (I2), ...`. -/
def chainChars : List (List Char) → List Char
  | [] => []
  | [I] => '(' :: I ++ [')']
  | I :: J :: Is => '(' :: I ++ [')'] ++ (',' :: ' ' :: chainChars (J :: Is))

/-- `chainChars` of a non-empty list, without its leading parenthesis. -/
def chainTail : List (List Char) → List Char
  | [] => []
  | [J] => J ++ [')']
  | J :: K :: Is => J ++ [')'] ++ (',' :: ' ' :: chainChars (K :: Is))

/-- The fragments the split produces after the first one. -/
def midFrags : List (List Char) → List (List Char)
  | [] => []
  | [J] => [J ++ [')']]
  | J :: K :: Is => J :: midFrags (K :: Is)

/-- All fragments the split produces on an encoded stream. -/
def topFrags : List (List Char) → List (List Char)
  | [] => [[]]
  | [I] => ['(' :: I ++ [')']]
  | I :: J :: Is => ('(' :: I) :: midFrags (J :: Is)

theorem chainChars_cons_eq (J : List Char) (Is : List (List Char)) :
    chainChars (J :: Is) = '(' :: chainTail (J :: Is) := by
  rcases Is with _ | ⟨K, Is'⟩ <;> simp [chainChars, chainTail]

theorem splitSepAux_chainTail :
    ∀ (Js : List (List Char)), Js ≠ [] →
    (∀ J ∈ Js, ∀ c ∈ J, c ≠ ')') →
    splitSepAux (chainTail Js) [] = midFrags Js := by
  intro Js
  induction Js with
  | nil => intro h _; exact absurd rfl h
  | cons J Js' ih =>
    intro _ h
    rcases Js' with _ | ⟨K, Is⟩
    · rw [chainTail, splitSepAux_skipAll J [')'] []
        (h J (List.mem_cons_self ..)), splitSepAux_closeEnd]
      simp [midFrags]
    · have hT : chainTail (J :: K :: Is) =
          J ++ (')' :: ',' :: ' ' :: chainChars (K :: Is)) := by
        simp [chainTail]
      rw [hT, splitSepAux_skipAll J _ [] (h J (List.mem_cons_self ..))]
      rw [chainChars_cons_eq K Is, splitSepAux_atSep]
      rw [ih (by simp) (fun x hx => h x (List.mem_cons_of_mem _ hx))]
      simp [midFrags]

theorem splitSepAux_chainChars (Is : List (List Char)) (hne : Is ≠ [])
    (hp : ∀ I ∈ Is, ∀ c ∈ I, c ≠ ')') :
    splitSepAux (chainChars Is) [] = topFrags Is := by
  rcases Is with _ | ⟨I, _ | ⟨J, Js⟩⟩
  · exact absurd rfl hne
  · have hcs : chainChars [I] = ('(' :: I) ++ [')'] := by
      simp [chainChars]
    have hno : ∀ c ∈ '(' :: I, c ≠ ')' := by
      intro c hc
      rcases List.mem_cons.mp hc with rfl | hc
      · simp
      · exact hp I (List.mem_cons_self ..) c hc
    rw [hcs, splitSepAux_skipAll _ _ [] hno, splitSepAux_closeEnd]
    simp [topFrags]
  · have hcs : chainChars (I :: J :: Js) =
        ('(' :: I) ++ (')' :: ',' :: ' ' :: chainChars (J :: Js)) := by
      simp [chainChars]
    have hno : ∀ c ∈ '(' :: I, c ≠ ')' := by
      intro c hc
      rcases List.mem_cons.mp hc with rfl | hc
      · simp
      · exact hp I (List.mem_cons_self ..) c hc
    rw [hcs, splitSepAux_skipAll _ _ [] hno, chainChars_cons_eq J Js,
      splitSepAux_atSep]
    rw [splitSepAux_chainTail (J :: Js) (by simp)
      (fun x hx => hp x (List.mem_cons_of_mem _ hx))]
    simp [topFrags]

/-- Shape predicate for one tuple interior: non-empty, no parentheses, no
leading or trailing whitespace. -/
def GoodI (I : List Char) : Prop :=
  I ≠ [] ∧ (∀ c ∈ I, c ≠ '(' ∧ c ≠ ')') ∧
  (∀ c, I.head? = some c → isJsWs c = false) ∧
  (∀ c, I.getLast? = some c → isJsWs c = false)

theorem dropWhile_eq_self_of_head {cs : List Char}
    (hh : ∀ c, cs.head? = some c → isJsWs c = false) :
    cs.dropWhile isJsWs = cs := by
  rcases cs with _ | ⟨c, rest⟩
  · rfl
  · rw [List.dropWhile_cons, if_neg (by simp [hh c rfl])]

theorem trimChars_eq_self {cs : List Char}
    (hh : ∀ c, cs.head? = some c → isJsWs c = false)
    (hl : ∀ c, cs.getLast? = some c → isJsWs c = false) :
    trimChars cs = cs := by
  unfold trimChars
  rw [dropWhile_eq_self_of_head hh,
    dropWhile_eq_self_of_head (fun c hc =>
      hl c (by rwa [List.head?_reverse] at hc))]
  simp

theorem getLast?_cons_ne {c : Char} {t : List Char} (h : t ≠ []) :
    (c :: t).getLast? = t.getLast? := by
  rcases t with _ | ⟨b, l⟩
  · exact absurd rfl h
  · simp [List.getLast?_cons_cons]

theorem head?_append_left {l l' : List Char} (h : l ≠ []) :
    (l ++ l').head? = l.head? := by
  rcases l with _ | ⟨c, rest⟩
  · exact absurd rfl h
  · rfl

theorem getLast?_append_right {l l' : List Char} (h : l' ≠ []) :
    (l ++ l').getLast? = l'.getLast? := by
  induction l with
  | nil => rfl
  | cons c rest ih =>
    rw [List.cons_append, getLast?_cons_ne, ih]
    intro he
    rcases List.append_eq_nil.mp he with ⟨_, h2⟩
    exact h h2

theorem startsParen_true_of_open (X : List Char) :
    startsParen ('(' :: X) = true := by simp [startsParen]

theorem startsParen_false_of_goodI {I : List Char} (h : GoodI I) :
    startsParen I = false := by
  obtain ⟨hne, hp, _, _⟩ := h
  rcases I with _ | ⟨c, rest⟩
  · rfl
  · simp [startsParen, (hp c (List.mem_cons_self ..)).1]

theorem endsParen_concat (l : List Char) :
    endsParen (l ++ [')']) = true := by
  rw [endsParen, List.getLast?_concat]
  simp

theorem endsParen_false_of_goodI {I : List Char} (h : GoodI I) :
    endsParen I = false := by
  obtain ⟨hne, hp, _, _⟩ := h
  rw [endsParen]
  rcases hg : I.getLast? with _ | c
  · rfl
  · have hc : c ∈ I := List.mem_of_mem_getLast? hg
    simp [(hp c hc).2]

theorem endsParen_cons_ne {c : Char} {t : List Char} (h : t ≠ []) :
    endsParen (c :: t) = endsParen t := by
  rw [endsParen, endsParen, getLast?_cons_ne h]

theorem startsParen_append_left {t : List Char} (X : List Char)
    (h : t ≠ []) : startsParen (t ++ X) = startsParen t := by
  rcases t with _ | ⟨c, rest⟩
  · exact absurd rfl h
  · rfl

theorem ensureParens_of_closed {t : List Char} (hs : startsParen t = true)
    (he : endsParen t = true) (n i : Nat) : ensureParens n i t = t := by
  unfold ensureParens
  simp [hs, he]

theorem ensureParens_first {t : List Char} (ht : t ≠ [])
    (hs : startsParen t = true) (he : endsParen t = false) {n i : Nat}
    (hi : i < n - 1) : ensureParens n i t = t ++ [')'] := by
  unfold ensureParens
  simp [hs, he, hi, startsParen_append_left _ ht, endsParen_concat]

theorem ensureParens_mid {t : List Char} (ht : t ≠ [])
    (hs : startsParen t = false) (he : endsParen t = false) {n i : Nat}
    (h0 : 0 < i) (hi : i < n - 1) :
    ensureParens n i t = '(' :: t ++ [')'] := by
  unfold ensureParens
  have h1 : endsParen ('(' :: t) = false := by
    rw [endsParen_cons_ne ht]; exact he
  have h2 : endsParen ('(' :: (t ++ [')'])) = true := by
    rw [endsParen_cons_ne (by simp)]
    exact endsParen_concat t
  simp [hs, he, h0, hi, h1, h2, startsParen_true_of_open]

theorem ensureParens_last {t : List Char} (ht : t ≠ [])
    (hs : startsParen t = false) (he : endsParen t = true) {n i : Nat}
    (h0 : 0 < i) (hi : ¬ i < n - 1) : ensureParens n i t = '(' :: t := by
  unfold ensureParens
  simp [hs, he, h0, hi, endsParen_cons_ne ht, startsParen_true_of_open]

theorem goodI_trim_self {I : List Char} (h : GoodI I) : trimChars I = I :=
  trimChars_eq_self h.2.2.1 h.2.2.2

theorem goodI_no_close {I : List Char} (h : GoodI I) : ∀ c ∈ I, c ≠ ')' :=
  fun c hc => (h.2.1 c hc).2

theorem trim_first_frag {I : List Char} (h : GoodI I) :
    trimChars ('(' :: I) = '(' :: I :=
  trimChars_eq_self
    (fun c hc => by
      simp only [List.head?_cons, Option.some.injEq] at hc
      subst hc; rfl)
    (fun c hc => by
      rw [getLast?_cons_ne h.1] at hc
      exact h.2.2.2 c hc)

theorem trim_last_frag {I : List Char} (h : GoodI I) :
    trimChars (I ++ [')']) = I ++ [')'] :=
  trimChars_eq_self
    (fun c hc => by
      rw [head?_append_left h.1] at hc
      exact h.2.2.1 c hc)
    (fun c hc => by
      rw [List.getLast?_concat] at hc
      simp only [Option.some.injEq] at hc
      subst hc; rfl)

theorem trim_closed_frag {I : List Char} (h : GoodI I) :
    trimChars ('(' :: I ++ [')']) = '(' :: I ++ [')'] :=
  trimChars_eq_self
    (fun c hc => by
      rw [head?_append_left (by simp)] at hc
      simp only [List.head?_cons, Option.some.injEq] at hc
      subst hc; rfl)
    (fun c hc => by
      rw [List.getLast?_concat] at hc
      simp only [Option.some.injEq] at hc
      subst hc; rfl)

theorem midFrags_length :
    ∀ (Js : List (List Char)), Js ≠ [] → (midFrags Js).length = Js.length := by
  intro Js
  induction Js with
  | nil => intro h; exact absurd rfl h
  | cons J Js' ih =>
    intro _
    rcases Js' with _ | ⟨K, Is⟩
    · rfl
    · simp only [midFrags, List.length_cons]
      rw [ih (by simp)]
      simp

theorem fixFrags_midFrags (n : Nat) :
    ∀ (Js : List (List Char)) (i : Nat), Js ≠ [] →
    (∀ J ∈ Js, GoodI J) → 0 < i → i + Js.length = n →
    fixFrags n i (midFrags Js) = Js.map (fun J => '(' :: J ++ [')']) := by
  intro Js
  induction Js with
  | nil => intro i h; exact absurd rfl h
  | cons J Js' ih =>
    intro i _ hg h0 hn
    have hgJ := hg J (List.mem_cons_self ..)
    rcases Js' with _ | ⟨K, Is⟩
    · rw [midFrags, fixFrags, trim_last_frag hgJ]
      rw [if_neg (by simp)]
      have hs : startsParen (J ++ [')']) = false := by
        rw [startsParen_append_left _ hgJ.1]
        exact startsParen_false_of_goodI hgJ
      rw [ensureParens_last (by simp) hs (endsParen_concat J) h0
        (by simp at hn; omega)]
      rfl
    · rw [midFrags, fixFrags, goodI_trim_self hgJ, if_neg (by simp [hgJ.1])]
      rw [ensureParens_mid hgJ.1 (startsParen_false_of_goodI hgJ)
        (endsParen_false_of_goodI hgJ) h0 (by simp at hn; omega)]
      rw [ih (i + 1) (by simp) (fun x hx => hg x (List.mem_cons_of_mem _ hx))
        (by omega) (by simp at hn ⊢; omega)]
      rfl

theorem fixFrags_topFrags (Is : List (List Char)) (hne : Is ≠ [])
    (hg : ∀ I ∈ Is, GoodI I) :
    fixFrags (topFrags Is).length 0 (topFrags Is) =
      Is.map (fun I => '(' :: I ++ [')']) := by
  rcases Is with _ | ⟨I, _ | ⟨J, Js⟩⟩
  · exact absurd rfl hne
  · have hgI := hg I (List.mem_cons_self ..)
    have hs : startsParen ('(' :: I ++ [')']) = true := by
      rw [startsParen_append_left [')'] (by simp)]
      exact startsParen_true_of_open I
    have he : endsParen ('(' :: I ++ [')']) = true := endsParen_concat _
    rw [topFrags, fixFrags, trim_closed_frag hgI, if_neg (by simp)]
    rw [ensureParens_of_closed hs he]
    rfl
  · have hgI := hg I (List.mem_cons_self ..)
    have hmlen : (midFrags (J :: Js)).length = (J :: Js).length :=
      midFrags_length _ (by simp)
    rw [topFrags, fixFrags, trim_first_frag hgI, if_neg (by simp)]
    have hs : startsParen ('(' :: I) = true := startsParen_true_of_open _
    have he : endsParen ('(' :: I) = false := by
      rw [endsParen_cons_ne hgI.1]
      exact endsParen_false_of_goodI hgI
    have hi0 : (0 : Nat) < (('(' :: I) :: midFrags (J :: Js)).length - 1 := by
      simp [hmlen]
    rw [ensureParens_first (by simp) hs he hi0]
    rw [fixFrags_midFrags _ (J :: Js) 1 (by simp)
      (fun x hx => hg x (List.mem_cons_of_mem _ hx)) (by omega)
      (by simp only [List.length_cons, hmlen]; omega)]
    simp

theorem chainChars_ne_nil (Is : List (List Char)) (h : Is ≠ []) :
    chainChars Is ≠ [] := by
  rcases Is with _ | ⟨I, _ | ⟨J, Js⟩⟩
  · exact absurd rfl h
  · simp [chainChars]
  · simp [chainChars]

theorem chainChars_head_open (Is : List (List Char)) (h : Is ≠ []) :
    (chainChars Is).head? = some '(' := by
  rcases Is with _ | ⟨I, _ | ⟨J, Js⟩⟩
  · exact absurd rfl h
  · rfl
  · rfl

theorem chainChars_getLast_close :
    ∀ (Is : List (List Char)), Is ≠ [] →
    (chainChars Is).getLast? = some ')' := by
  intro Is
  induction Is with
  | nil => intro h; exact absurd rfl h
  | cons I Is' ih =>
    intro _
    rcases Is' with _ | ⟨J, Js⟩
    · rw [chainChars]
      exact List.getLast?_concat _
    · rw [chainChars, getLast?_append_right (by simp),
        getLast?_cons_ne (by simp), getLast?_cons_ne
          (chainChars_ne_nil (J :: Js) (by simp))]
      exact ih (by simp)

theorem length_dropWhile_le (p : Char → Bool) (l : List Char) :
    (l.dropWhile p).length ≤ l.length := by
  induction l with
  | nil => simp
  | cons c t ih =>
    rw [List.dropWhile_cons]
    by_cases h : p c = true
    · rw [if_pos h]
      exact Nat.le_trans ih (Nat.le_succ _)
    · rw [if_neg h]

theorem decodeChars_chain (Is : List (List Char)) (hne : Is ≠ [])
    (hg : ∀ I ∈ Is, GoodI I) :
    decodeChars (chainChars Is) = Is.map (fun I => '(' :: I ++ [')']) := by
  rw [show decodeChars (chainChars Is) =
    fixFrags (splitSepAux (trimChars (chainChars Is)) []).length 0
      (splitSepAux (trimChars (chainChars Is)) []) from rfl]
  rw [trimChars_eq_self
    (fun c hc => by
      rw [chainChars_head_open Is hne] at hc
      simp only [Option.some.injEq] at hc
      subst hc; rfl)
    (fun c hc => by
      rw [chainChars_getLast_close Is hne] at hc
      simp only [Option.some.injEq] at hc
      subst hc; rfl)]
  rw [splitSepAux_chainChars Is hne
    (fun I hI c hc => ((hg I hI).2.1 c hc).2)]
  exact fixFrags_topFrags Is hne hg

/-- The amended well-formedness condition on one selected option: non-empty,
free of parentheses, and unchanged by trimming (no leading or trailing
whitespace). -/
def goodOpt (o : String) : Prop :=
  o ≠ "" ∧ (∀ c ∈ o.data, c ≠ '(' ∧ c ≠ ')') ∧ trimChars o.data = o.data

instance (o : String) : Decidable (goodOpt o) := by
  unfold goodOpt
  infer_instance

theorem head_not_ws_of_trim_self {l : List Char} (h : trimChars l = l) :
    ∀ c, l.head? = some c → isJsWs c = false := by
  rcases l with _ | ⟨c', t⟩
  · intro c hc
    simp at hc
  · intro c hc
    simp only [List.head?_cons, Option.some.injEq] at hc
    subst hc
    by_contra hw
    simp only [Bool.not_eq_false] at hw
    have h1 : (c' :: t).dropWhile isJsWs = t.dropWhile isJsWs := by
      rw [List.dropWhile_cons, if_pos hw]
    have hlen : (trimChars (c' :: t)).length ≤ t.length := by
      unfold trimChars
      rw [h1]
      calc ((t.dropWhile isJsWs).reverse.dropWhile isJsWs).reverse.length
          = ((t.dropWhile isJsWs).reverse.dropWhile isJsWs).length := by
            rw [List.length_reverse]
        _ ≤ (t.dropWhile isJsWs).reverse.length :=
            length_dropWhile_le _ _
        _ = (t.dropWhile isJsWs).length := by rw [List.length_reverse]
        _ ≤ t.length := length_dropWhile_le _ _
    rw [h] at hlen
    simp only [List.length_cons] at hlen
    omega

theorem last_not_ws_of_trim_self {l : List Char} (hne : l ≠ [])
    (h : trimChars l = l) :
    ∀ c, l.getLast? = some c → isJsWs c = false := by
  intro c hc
  by_contra hw
  simp only [Bool.not_eq_false] at hw
  by_cases h1 : l.dropWhile isJsWs = []
  · have h0 : trimChars l = [] := by
      unfold trimChars
      rw [h1]
      rfl
    rw [h] at h0
    exact hne h0
  · have hgl : (l.dropWhile isJsWs).getLast? = l.getLast? := by
      conv_rhs => rw [← List.takeWhile_append_dropWhile isJsWs l]
      rw [getLast?_append_right h1]
    have hrev : (l.dropWhile isJsWs).reverse.head? = some c := by
      rw [List.head?_reverse, hgl, hc]
    rcases hd : (l.dropWhile isJsWs).reverse with _ | ⟨c', t'⟩
    · rw [hd] at hrev
      simp at hrev
    · rw [hd] at hrev
      simp only [List.head?_cons, Option.some.injEq] at hrev
      have h2 : (c' :: t').dropWhile isJsWs = t'.dropWhile isJsWs := by
        rw [List.dropWhile_cons, if_pos (by rw [hrev]; exact hw)]
      have hlen : (trimChars l).length < l.length := by
        unfold trimChars
        rw [hd, h2]
        have e1 : t'.length + 1 = (l.dropWhile isJsWs).length := by
          have e := congrArg List.length hd
          simp only [List.length_reverse, List.length_cons] at e
          omega
        have e2 : (l.dropWhile isJsWs).length ≤ l.length :=
          length_dropWhile_le _ _
        have e3 : (t'.dropWhile isJsWs).length ≤ t'.length :=
          length_dropWhile_le _ _
        rw [List.length_reverse]
        omega
      rw [h] at hlen
      omega

theorem data_eq_nil_iff (o : String) : o.data = [] ↔ o = "" := by
  constructor
  · intro h
    obtain ⟨d⟩ := o
    simp only at h
    rw [h]
  · intro h
    rw [h]

theorem goodI_of_goodOpt {o : String} (h : goodOpt o) : GoodI o.data := by
  obtain ⟨h1, h2, h3⟩ := h
  exact ⟨fun he => h1 ((data_eq_nil_iff o).mp he), h2,
    head_not_ws_of_trim_self h3,
    last_not_ws_of_trim_self (fun he => h1 ((data_eq_nil_iff o).mp he)) h3⟩

theorem joinSep_data_two (o o2 : String) (rest : List String) :
    (joinSep ", " (o :: o2 :: rest)).data =
      o.data ++ (',' :: ' ' :: (joinSep ", " (o2 :: rest)).data) := by
  rw [joinSep, data_append, data_append]
  simp [List.append_assoc]

theorem goodI_join : ∀ (opts : List String), opts ≠ [] →
    (∀ o ∈ opts, goodOpt o) → GoodI (joinSep ", " opts).data := by
  intro opts
  induction opts with
  | nil => intro h _; exact absurd rfl h
  | cons o opts' ih =>
    intro _ hg
    rcases opts' with _ | ⟨o2, rest⟩
    · exact goodI_of_goodOpt (hg o (List.mem_cons_self ..))
    · have hI' := ih (by simp) (fun x hx => hg x (List.mem_cons_of_mem _ hx))
      have hgo := hg o (List.mem_cons_self ..)
      have hone : o.data ≠ [] := fun he => hgo.1 ((data_eq_nil_iff o).mp he)
      rw [joinSep_data_two o o2 rest]
      refine ⟨by simp [hone], ?_, ?_, ?_⟩
      · intro c hc
        rcases List.mem_append.mp hc with hc | hc
        · exact hgo.2.1 c hc
        · rcases List.mem_cons.mp hc with rfl | hc
          · exact ⟨by decide, by decide⟩
          · rcases List.mem_cons.mp hc with rfl | hc
            · exact ⟨by decide, by decide⟩
            · exact hI'.2.1 c hc
      · intro c hc
        rw [head?_append_left hone] at hc
        exact head_not_ws_of_trim_self hgo.2.2 c hc
      · intro c hc
        rw [getLast?_append_right (by simp), getLast?_cons_ne (by simp),
          getLast?_cons_ne hI'.1] at hc
        exact hI'.2.2.2 c hc

theorem renderedOf_eq_map (l : List (List String)) :
    renderedOf l = (l.filter (fun opts => opts ≠ [])).map
      (fun opts => "(" ++ joinSep ", " opts ++ ")") := by
  induction l with
  | nil => rfl
  | cons opts l' ih =>
    by_cases h : opts = []
    · subst h
      have h1 : renderedOf ([] :: l') = renderedOf l' := by
        simp [renderedOf, renderTuple]
      have h2 : (([] :: l').filter (fun opts => opts ≠ [])) =
          l'.filter (fun opts => opts ≠ []) := by
        simp
      rw [h1, h2, ih]
    · have htup : renderTuple opts = "(" ++ joinSep ", " opts ++ ")" := by
        rw [renderTuple, if_neg h]
      have h1 : renderedOf (opts :: l') = renderTuple opts :: renderedOf l' := by
        simp only [renderedOf, List.map_cons, List.filter_cons]
        rw [if_pos (by simpa using renderTuple_ne_empty h)]
      have h2 : ((opts :: l').filter (fun opts => opts ≠ [])) =
          opts :: l'.filter (fun opts => opts ≠ []) := by
        rw [List.filter_cons, if_pos (by simpa using h)]
      rw [h1, h2, List.map_cons, ih, htup]

theorem encode_data_chain : ∀ (L : List (List String)),
    (joinSep ", " (L.map (fun opts => "(" ++ joinSep ", " opts ++ ")"))).data =
      chainChars (L.map (fun opts => (joinSep ", " opts).data)) := by
  intro L
  induction L with
  | nil => rfl
  | cons opts L' ih =>
    rcases L' with _ | ⟨opts2, rest⟩
    · rfl
    · simp only [List.map_cons] at ih ⊢
      rw [joinSep, data_append, data_append, ih, chainChars]
      simp [List.append_assoc]

theorem decodeCell_data (s : String) :
    decodeCell s = (decodeChars s.data).map (fun l => (⟨l⟩ : String)) := rfl

/-- Claim C1 counterexample: the claimed round-trip law fails as stated:
an option whose text contains the literal `"),("` is split into two
tuples, and an option with leading whitespace loses it to the fragment
trim. -/
theorem decode_encode_not_roundtrip :
    decodeCell (encodeOrder [["x),(y"]]) = ["(x)", "(y)"] ∧
    tuplesOfOrder [["x),(y"]] = ["(x),(y)"] ∧
    decodeCell (encodeOrder [["x),(y"]]) ≠ tuplesOfOrder [["x),(y"]] ∧
    decodeCell (encodeOrder [["a"], [" b"]]) = ["(a)", "(b)"] ∧
    tuplesOfOrder [["a"], [" b"]] = ["(a)", "( b)"] ∧
    decodeCell (encodeOrder [["a"], [" b"]]) ≠ tuplesOfOrder [["a"], [" b"]] :=
  ⟨rfl, rfl, by decide, rfl, rfl, by decide⟩

/-- Claim C1 (amended): provided every non-empty selected option contains
no parenthesis character and is unchanged by trimming, decoding the
encoded options string yields exactly the ordered list of tuple strings
that encoding produces for the instances with at least one non-empty
option; instances with zero non-empty options contribute no tuple. -/
theorem decode_encode_roundTrip (is : List (List String))
    (h : ∀ inst ∈ is, ∀ o ∈ inst, o ≠ "" → goodOpt o) :
    decodeCell (encodeOrder is) = tuplesOfOrder is := by
  have hLg : ∀ opts ∈ (is.map instOpts).filter (fun opts => opts ≠ []),
      opts ≠ [] ∧ ∀ o ∈ opts, goodOpt o := by
    intro opts hopts
    rw [List.mem_filter] at hopts
    obtain ⟨hmem, hne⟩ := hopts
    simp only [decide_not, Bool.not_eq_eq_eq_not, Bool.not_true,
      decide_eq_false_iff_not] at hne
    obtain ⟨inst, hinst, rfl⟩ := List.mem_map.mp hmem
    refine ⟨hne, ?_⟩
    intro o ho
    rw [instOpts, List.mem_filter] at ho
    exact h inst hinst o ho.1 (by simpa using ho.2)
  rw [show encodeOrder is = joinSep ", "
      (((is.map instOpts).filter (fun opts => opts ≠ [])).map
        (fun opts => "(" ++ joinSep ", " opts ++ ")")) by
    rw [encodeOrder, encodeInstances, renderedOf_eq_map]]
  rw [show tuplesOfOrder is =
      ((is.map instOpts).filter (fun opts => opts ≠ [])).map
        (fun opts => "(" ++ joinSep ", " opts ++ ")") by
    rw [tuplesOfOrder, renderedOf_eq_map]]
  generalize hL : (is.map instOpts).filter (fun opts => opts ≠ []) = L at hLg ⊢
  rcases L with _ | ⟨opts0, L'⟩
  · rfl
  · rw [decodeCell_data, encode_data_chain]
    rw [decodeChars_chain _ (by simp) ?_]
    · rw [List.map_map, List.map_map]
      apply List.map_congr_left
      intro opts _
      rfl
    · intro I hI
      obtain ⟨opts, hopts, rfl⟩ := List.mem_map.mp hI
      have hgood := hLg opts hopts
      exact goodI_join opts hgood.1 hgood.2

/-- Concrete run of the amended round trip on the spec's scenario with an
extra all-empty instance. -/
theorem decode_encode_roundTrip_witness :
    decodeCell (encodeOrder
        [["egg", "croissant"], ["", ""], ["no egg", "muffin"]]) =
      tuplesOfOrder [["egg", "croissant"], ["", ""], ["no egg", "muffin"]] ∧
    tuplesOfOrder [["egg", "croissant"], ["", ""], ["no egg", "muffin"]] =
      ["(egg, croissant)", "(no egg, muffin)"] :=
  ⟨decode_encode_roundTrip _ (by decide), by rfl⟩

end LittleBites
